import Mathlib

/-!
Verification development for the Ruby DSL dependency extractor
(`ruby_dsl_parser.ts`): a tokenizer, a recursive-descent parser for the
Gemfile / Podfile / gemspec / podspec subset, and string-normalization
utilities.  Source strings are modelled as `List Char`; the JavaScript
code-unit view coincides with this model on the ASCII subset that drives
every lexical decision.  JavaScript `charCodeAt` out-of-range (`NaN`) is
modelled by the sentinel `NO_CHAR`, which compares unequal to every real
code and fails every range test, exactly as `NaN` does.
-/

namespace RubyDsl

abbrev Str := List Char

def str (s : String) : Str := s.data

/-! Character codes, as declared at the top of the source file. -/

def CHARACTER_TAB : Nat := 0x09
def LINE_FEED : Nat := 0x0a
def SPACE_CHARACTER : Nat := 0x20
def SINGLE_QUOTE_CHARACTER : Nat := 0x27
def DOUBLE_QUOTE_CHARACTER : Nat := 0x22
def PERCENT_CHARACTER : Nat := 0x25
def LEFT_PARENTHESIS : Nat := 0x28
def RIGHT_PARENTHESIS : Nat := 0x29
def LEFT_BRACKET : Nat := 0x5b
def RIGHT_BRACKET : Nat := 0x5d
def LEFT_CURLY_BRACE : Nat := 0x7b
def RIGHT_CURLY_BRACE : Nat := 0x7d
def LESS_THAN_CHARACTER : Nat := 0x3c
def GREATER_THAN_CHARACTER : Nat := 0x3e
def COMMA_CHARACTER : Nat := 0x2c
def DOT_CHARACTER : Nat := 0x2e
def COLON_CHARACTER : Nat := 0x3a
def EQUALS_CHARACTER : Nat := 0x3d
def HASH_CHARACTER : Nat := 0x23
def BACKSLASH_CHARACTER : Nat := 0x5c
def PIPE_CHARACTER : Nat := 0x7c
def MINUS_CHARACTER : Nat := 0x2d
def PLUS_CHARACTER : Nat := 0x2b
def AMPERSAND_CHARACTER : Nat := 0x26
def EXCLAMATION_CHARACTER : Nat := 0x21
def ASTERISK_CHARACTER : Nat := 0x2a
def FORWARD_SLASH_CHARACTER : Nat := 0x2f
def SEMICOLON_CHARACTER : Nat := 0x3b
def DOLLAR_CHARACTER : Nat := 0x24
def UNDERSCORE_CHARACTER : Nat := 0x5f
def QUESTION_CHARACTER : Nat := 0x3f
def LETTER_A_CHARACTER : Nat := 64
def LETTER_Z_CHARACTER : Nat := 90
def LOWERCASE_A_CHARACTER : Nat := 97
def LOWERCASE_Z_CHARACTER : Nat := 122
def DIGIT_ZERO_CHARACTER : Nat := 48
def DIGIT_NINE_CHARACTER : Nat := 57

/-! Limits. -/

def MAX_TOKENS : Nat := 40000
def MAX_ITERATIONS : Nat := 2
def MAX_STRING_LENGTH : Nat := 8 * 1024
def MAX_BLOCK_DEPTH : Nat := 256

/-- Sentinel for `charCodeAt` on an out-of-range index (JS `NaN`): larger
than every real code unit, so every equality and range test fails. -/
def NO_CHAR : Nat := 2 ^ 32

/-- `source.charCodeAt(i)`. -/
def codeAt (s : Str) (i : Nat) : Nat :=
  match s.get? i with
  | some c => c.toNat
  | none => NO_CHAR

/-- `source.slice(a, b)` for indices already clamped to `[0, length]`. -/
def slice (s : Str) (a b : Nat) : Str := (s.drop a).take (b - a)

def closingDelimiter (o : Nat) : Nat :=
  if o = LEFT_CURLY_BRACE then RIGHT_CURLY_BRACE
  else if o = LEFT_BRACKET then RIGHT_BRACKET
  else if o = LEFT_PARENTHESIS then RIGHT_PARENTHESIS
  else if o = LESS_THAN_CHARACTER then GREATER_THAN_CHARACTER
  else o

/-! Characters used by the normalizer (spelled via `Char.ofNat` where a
character literal would be awkward). -/

def squote : Char := Char.ofNat 39
def dquote : Char := Char.ofNat 34
def colonChar : Char := Char.ofNat 58
def percentChar : Char := Char.ofNat 37

/-- The membership test of JavaScript `String.prototype.trim`, restricted to
the code points that can occur here (ASCII whitespace plus the common
Unicode line/space separators). -/
def isJsWhitespaceCode (n : Nat) : Bool :=
  n = 9 || n = 10 || n = 11 || n = 12 || n = 13 || n = 32 ||
  n = 0xa0 || n = 0x2028 || n = 0x2029 || n = 0xfeff

/-- `s.trim()`. -/
def trimStr (s : Str) : Str :=
  ((s.dropWhile fun c => isJsWhitespaceCode c.toNat).reverse.dropWhile
      fun c => isJsWhitespaceCode c.toNat).reverse

/-- Front loop of the angle-bracket special case of `strip`: drop leading
`><` pairs while at least two characters remain before the end index. -/
def dropAnglePairs : Str → Str
  | '>' :: '<' :: rest => dropAnglePairs rest
  | s => s

/-- Back loop of the angle-bracket special case, on the reversed segment:
drop trailing `><` pairs while strictly more than two characters remain. -/
def dropAnglePairsRev : Str → Str
  | '<' :: '>' :: c :: rest => dropAnglePairsRev (c :: rest)
  | s => s

/-- The `<...>` branch inside the `%q`/`%w` case of `strip`. -/
def stripPercentAngles (seg : Str) : Str :=
  let s1 := dropAnglePairs seg
  let s2 := (dropAnglePairsRev s1.reverse).reverse
  let s3 := match s2 with
    | '>' :: rest => rest
    | s => s
  if s3.getLast? = some '>' then s3.dropLast else s3

def tripleQuote : Str := [squote, squote, squote]

/-- `strip` on a raw `%q⟨...⟩` / `%w⟨...⟩` literal. -/
def stripPercent (raw : Str) : Str :=
  let o := codeAt raw 2
  let cl := closingDelimiter o
  let seg := slice raw 3 (raw.length - 1)
  let core :=
    if o = LESS_THAN_CHARACTER ∧ cl = GREATER_THAN_CHARACTER then
      stripPercentAngles seg
    else
      ((seg.dropWhile fun c => c.toNat = o).reverse.dropWhile
          fun c => c.toNat = cl).reverse
  let content := trimStr core
  if content.length ≥ 6 ∧ content.take 3 = tripleQuote ∧
      content.drop (content.length - 3) = tripleQuote then
    slice content 3 (content.length - 3)
  else content

/-- The quote-pair peeling loop at the end of the quoted-string case of
`strip`; the fuel is instantiated with the content length, which bounds the
number of iterations since each one removes two characters. -/
def stripInnerQuotes : Nat → Str → Str
  | 0, s => s
  | fuel + 1, s =>
    if s.length ≥ 2 ∧ (s.head? = some squote ∨ s.head? = some dquote) ∧
        s.head? = s.getLast? then
      stripInnerQuotes fuel (s.drop 1).dropLast
    else s

/-- `strip` on a raw quoted string (first character is the quote). -/
def stripQuoted (raw : Str) (quote : Char) : Str :=
  let seg := slice raw 1 (raw.length - 1)
  let core := ((seg.dropWhile fun c => c = quote).reverse.dropWhile
      fun c => c = quote).reverse
  stripInnerQuotes core.length core

/-- The string normalizer `strip`. -/
def strip (raw : Str) : Str :=
  if raw.take 2 = [percentChar, 'q'] ∨ raw.take 2 = [percentChar, 'w'] then
    stripPercent raw
  else
    match raw with
    | [] => []
    | c :: rest =>
      if c = colonChar ∧ rest ≠ [] then
        match rest with
        | c2 :: _ =>
          if c2 = squote ∨ c2 = dquote then slice raw 2 (raw.length - 1)
          else rest
        | [] => c :: rest
      else if c = squote ∨ c = dquote then stripQuoted (c :: rest) c
      else c :: rest

/-- The word splitter inside `fromPercentW`: split on runs of space, tab
and newline, keeping non-empty pieces. -/
def splitWords : Str → Str → List Str
  | [], cur => if cur = [] then [] else [cur]
  | c :: rest, cur =>
    if c.toNat = SPACE_CHARACTER ∨ c.toNat = CHARACTER_TAB ∨
        c.toNat = LINE_FEED then
      if cur = [] then splitWords rest [] else cur :: splitWords rest []
    else splitWords rest (cur ++ [c])

/-- `%w[...]` word-array expansion. -/
def fromPercentW (raw : Str) : List Str :=
  if raw.take 2 = [percentChar, 'w'] then
    let content := trimStr (slice raw 3 (raw.length - 1))
    if content = [] then [] else splitWords content []
  else [raw]

def isDigitCode (n : Nat) : Bool :=
  decide (DIGIT_ZERO_CHARACTER ≤ n ∧ n ≤ DIGIT_NINE_CHARACTER)

/-- The version-formatting pass at the end of `parseDecl`: insert a space
between a leading non-digit run and the first digit when none is there. -/
def formatVersion (v : Str) : Str :=
  let j := v.findIdx fun c => isDigitCode c.toNat
  if 0 < j ∧ j < v.length ∧ v.get? (j - 1) ≠ some ' ' then
    v.take j ++ ' ' :: v.drop j
  else v

/-! The token model. -/

inductive TokenKind where
  | Identifier
  | String
  | Symbol
  | Integer
  | Comma
  | Colon
  | LeftParen
  | RightParen
  | LeftBracket
  | RightBracket
  | Dot
  | Equals
  | NewLine
  | Do
  | End
  | If
  | Else
  | EndOfFile
deriving DecidableEq, Repr

structure Token where
  kind : TokenKind
  text : Str
  start : Nat
  endPos : Nat
  line : Nat
  column : Nat
deriving DecidableEq, Repr

structure Opener where
  line : Nat
  column : Nat
deriving DecidableEq, Repr

structure RubyDslError where
  message : Str
  offset : Nat
  line : Nat
  column : Nat
  previousHex : Str
  opener : Option Opener
deriving DecidableEq, Repr

/-- `text.charCodeAt(0).toString(16)`; an empty text gives `NaN`. -/
def hexOfText : Str → Str
  | [] => str "NaN"
  | c :: _ => Nat.toDigits 16 c.toNat

/-- `previousHex()` over the (reversed) accumulator of pushed tokens. -/
def previousHexOf : List Token → Str
  | [] => str "00"
  | t :: _ => hexOfText t.text

/-! Scanners for the tokenizer inner loops.  Each one recurses structurally
on the remaining character list and carries the absolute index alongside,
so positions and line/column bookkeeping mirror the source exactly. -/

/-- Body scan shared by quoted strings and `%q`/`%w` literals: a backslash
consumes the following character unconditionally, newlines update the line
counter, the body length is capped.  On success the returned index points
at the closing delimiter. -/
def scanBody (closeCode : Nat) (tooLongMsg untermMsg : Str) (op : Opener)
    (ph : Str) : Str → Nat → Nat → Nat → Nat →
    Except RubyDslError (Nat × Nat × Nat)
  | [], _, idx, line, col =>
    .error ⟨untermMsg, idx, line, col, ph, some op⟩
  | c :: rest, cnt, idx, line, col =>
    if c.toNat = closeCode then .ok (idx, line, col)
    else if cnt + 1 > MAX_STRING_LENGTH then
      .error ⟨tooLongMsg, idx, line, col, ph, some op⟩
    else if c.toNat = BACKSLASH_CHARACTER then
      match rest with
      | [] => .error ⟨untermMsg, idx + 2, line, col + 2, ph, some op⟩
      | c2 :: rest2 =>
        if c2.toNat = LINE_FEED then
          scanBody closeCode tooLongMsg untermMsg op ph rest2 (cnt + 1)
            (idx + 2) (line + 1) 1
        else
          scanBody closeCode tooLongMsg untermMsg op ph rest2 (cnt + 1)
            (idx + 2) line (col + 2)
    else if c.toNat = LINE_FEED then
      scanBody closeCode tooLongMsg untermMsg op ph rest (cnt + 1)
        (idx + 1) (line + 1) 1
    else
      scanBody closeCode tooLongMsg untermMsg op ph rest (cnt + 1)
        (idx + 1) line (col + 1)

/-- Body scan for quoted symbol literals (no backslash handling). -/
def scanSymBody (quoteCode : Nat) (op : Opener) (ph : Str) :
    Str → Nat → Nat → Nat → Nat → Except RubyDslError (Nat × Nat × Nat)
  | [], _, idx, line, col =>
    .error ⟨str "unterminated symbol", idx, line, col, ph, some op⟩
  | c :: rest, cnt, idx, line, col =>
    if c.toNat = quoteCode then .ok (idx, line, col)
    else if cnt + 1 > MAX_STRING_LENGTH then
      .error ⟨str "symbol literal too long", idx, line, col, ph, some op⟩
    else if c.toNat = LINE_FEED then
      scanSymBody quoteCode op ph rest (cnt + 1) (idx + 1) (line + 1) 1
    else
      scanSymBody quoteCode op ph rest (cnt + 1) (idx + 1) line (col + 1)

/-- Length of the run of characters satisfying `p` at the head. -/
def countWhile (p : Char → Bool) : Str → Nat
  | [] => 0
  | c :: rest => if p c then countWhile p rest + 1 else 0

def isIdentStartCode (c : Nat) : Bool :=
  decide ((LETTER_A_CHARACTER ≤ c ∧ c ≤ LETTER_Z_CHARACTER) ∨
    (LOWERCASE_A_CHARACTER ≤ c ∧ c ≤ LOWERCASE_Z_CHARACTER) ∨
    c = UNDERSCORE_CHARACTER ∨ c = DOLLAR_CHARACTER)

def isIdentContCode (c : Nat) : Bool :=
  decide ((LETTER_A_CHARACTER ≤ c ∧ c ≤ LETTER_Z_CHARACTER) ∨
    (LOWERCASE_A_CHARACTER ≤ c ∧ c ≤ LOWERCASE_Z_CHARACTER) ∨
    (DIGIT_ZERO_CHARACTER ≤ c ∧ c ≤ DIGIT_NINE_CHARACTER) ∨
    c = UNDERSCORE_CHARACTER ∨ c = DOLLAR_CHARACTER ∨
    c = QUESTION_CHARACTER ∨ c = EXCLAMATION_CHARACTER)

/-- Character class of unquoted symbol bodies (letters, digits, underscore;
the lower bound 64 also admits `@`, exactly as the source constants do). -/
def isSymContCode (c : Nat) : Bool :=
  decide ((LETTER_A_CHARACTER ≤ c ∧ c ≤ LETTER_Z_CHARACTER) ∨
    (LOWERCASE_A_CHARACTER ≤ c ∧ c ≤ LOWERCASE_Z_CHARACTER) ∨
    (DIGIT_ZERO_CHARACTER ≤ c ∧ c ≤ DIGIT_NINE_CHARACTER) ∨
    c = UNDERSCORE_CHARACTER)

def keywordKind (w : Str) : TokenKind :=
  if w = str "do" then .Do
  else if w = str "end" then .End
  else if w = str "if" then .If
  else if w = str "else" then .Else
  else .Identifier

/-- Result of one iteration of the tokenizer main loop: either characters
were consumed without emitting a token, or one token is emitted.  `emit`
records the index/line/column the source would hold at the `push` call
(used for the quota error) and the state at which the loop resumes. -/
inductive LexStep where
  | skip (idx line col : Nat)
  | emit (t : Token) (pushIdx pushLine pushCol : Nat) (idx line col : Nat)
deriving DecidableEq, Repr

/-- The resume index of a step. -/
def LexStep.nextIdx : LexStep → Nat
  | .skip i _ _ => i
  | .emit _ _ _ _ i _ _ => i

/-! The result of each tokenizer branch, as named step builders; each one
records the token (if any), the position at the `push` call, and the
state at which the loop resumes. -/

/-- Whitespace and silent punctuation: consume one character. -/
def skipOneStep (idx line col : Nat) : LexStep :=
  .skip (idx + 1) line (col + 1)

/-- A newline token. -/
def nlStep (src : Str) (idx line col : Nat) : LexStep :=
  .emit ⟨.NewLine, slice src idx (idx + 1), idx, idx + 1, line, col⟩
    idx line col (idx + 1) (line + 1) 1

/-- A single-character token (`, ( ) [ ] . =`); the push happens after
`++index`. -/
def singleCharStep (src : Str) (idx line col : Nat) : LexStep :=
  .emit ⟨if codeAt src idx = COMMA_CHARACTER then .Comma
      else if codeAt src idx = LEFT_PARENTHESIS then .LeftParen
      else if codeAt src idx = RIGHT_PARENTHESIS then .RightParen
      else if codeAt src idx = LEFT_BRACKET then .LeftBracket
      else if codeAt src idx = RIGHT_BRACKET then .RightBracket
      else if codeAt src idx = DOT_CHARACTER then .Dot
      else .Equals, slice src idx (idx + 1), idx, idx + 1, line, col⟩
    (idx + 1) line col (idx + 1) line (col + 1)

/-- A bare `Colon` token. -/
def colonTokStep (src : Str) (idx line col : Nat) : LexStep :=
  .emit ⟨.Colon, slice src idx (idx + 1), idx, idx + 1, line, col⟩
    idx line col (idx + 1) line (col + 1)

/-- The pipe character, emitted as a Symbol token. -/
def pipeStep (src : Str) (idx line col : Nat) : LexStep :=
  .emit ⟨.Symbol, slice src idx (idx + 1), idx, idx + 1, line, col⟩
    idx line col (idx + 1) line (col + 1)

/-- A quoted symbol token ending at the closing quote position `i2`. -/
def quotedSymStep (src : Str) (idx i2 l2 c2 : Nat) : LexStep :=
  .emit ⟨.Symbol, slice src idx (i2 + 1), idx, i2 + 1, l2, c2 + 1⟩
    (i2 + 1) l2 (c2 + 1) (i2 + 1) l2 (c2 + 1)

/-- An unquoted symbol token (`:` plus an identifier body). -/
def symWordStep (src : Str) (idx line col : Nat) : LexStep :=
  let n := countWhile (fun c => isSymContCode c.toNat) (src.drop (idx + 1))
  .emit ⟨.Symbol, slice src idx (idx + 1 + n), idx, idx + 1 + n, line,
      col + 1 + n⟩
    (idx + 1 + n) line (col + 1 + n) (idx + 1 + n) line (col + 1 + n)

/-- A comment: consume through end of line, emit nothing. -/
def commentStep (src : Str) (idx line col : Nat) : LexStep :=
  let n := countWhile (fun c => c.toNat ≠ LINE_FEED) (src.drop idx)
  .skip (idx + n) line (col + n)

/-- A quoted string token ending at closing quote position `i2`. -/
def stringStep (src : Str) (idx i2 l2 c2 : Nat) : LexStep :=
  .emit ⟨.String, slice src idx (i2 + 1), idx, i2 + 1, l2, c2⟩
    (i2 + 1) l2 c2 (i2 + 1) l2 (c2 + 1)

/-- A `%q`/`%w` literal token ending at closing delimiter position
`i2`. -/
def percentStep (src : Str) (idx i2 l2 c2 : Nat) : LexStep :=
  .emit ⟨.String, slice src idx (i2 + 1), idx, i2 + 1, l2, c2 + 1⟩
    (i2 + 1) l2 (c2 + 1) (i2 + 1) l2 (c2 + 1)

/-- An identifier or keyword token. -/
def identStep (src : Str) (idx line col : Nat) : LexStep :=
  let n := countWhile (fun c => isIdentContCode c.toNat) (src.drop idx)
  .emit ⟨keywordKind (slice src idx (idx + n)), slice src idx (idx + n),
      idx, idx + n, line, col⟩
    (idx + n) line (col + n) (idx + n) line (col + n)

/-- An integer token. -/
def intStep (src : Str) (idx line col : Nat) : LexStep :=
  let n := countWhile (fun c => isDigitCode c.toNat) (src.drop idx)
  .emit ⟨.Integer, slice src idx (idx + n), idx, idx + n, line, col⟩
    (idx + n) line (col + n) (idx + n) line (col + n)

/-- One iteration of the tokenizer main loop, at index `idx` (with
`idx < src.length`), following the branch order of the source. -/
def lexStep (src : Str) (idx line col : Nat) (ph : Str) :
    Except RubyDslError LexStep :=
  if codeAt src idx = SPACE_CHARACTER ∨ codeAt src idx = CHARACTER_TAB then
    .ok (skipOneStep idx line col)
  else if codeAt src idx = LINE_FEED then
    .ok (nlStep src idx line col)
  else if codeAt src idx = COMMA_CHARACTER ∨
      codeAt src idx = LEFT_PARENTHESIS ∨
      codeAt src idx = RIGHT_PARENTHESIS ∨
      codeAt src idx = LEFT_BRACKET ∨ codeAt src idx = RIGHT_BRACKET ∨
      codeAt src idx = DOT_CHARACTER ∨ codeAt src idx = EQUALS_CHARACTER then
    .ok (singleCharStep src idx line col)
  else if codeAt src idx = COLON_CHARACTER then
    if codeAt src (idx + 1) = COLON_CHARACTER ∨
        (if idx > 0 then codeAt src (idx - 1) else 0) = COLON_CHARACTER then
      .ok (colonTokStep src idx line col)
    else if codeAt src (idx + 1) = SINGLE_QUOTE_CHARACTER ∨
        codeAt src (idx + 1) = DOUBLE_QUOTE_CHARACTER then
      match scanSymBody (codeAt src (idx + 1)) ⟨line, col + 1⟩ ph
          (src.drop (idx + 2)) 0 (idx + 2) line (col + 2) with
      | .error e => .error e
      | .ok (i2, l2, c2) => .ok (quotedSymStep src idx i2 l2 c2)
    else if isSymContCode (codeAt src (idx + 1)) then
      .ok (symWordStep src idx line col)
    else
      .ok (colonTokStep src idx line col)
  else if codeAt src idx = HASH_CHARACTER then
    .ok (commentStep src idx line col)
  else if codeAt src idx = PIPE_CHARACTER then
    .ok (pipeStep src idx line col)
  else if codeAt src idx = SINGLE_QUOTE_CHARACTER ∨
      codeAt src idx = DOUBLE_QUOTE_CHARACTER then
    match scanBody (codeAt src idx) (str "string literal too long")
        (str "unterminated string") ⟨line, col⟩ ph (src.drop (idx + 1)) 0
        (idx + 1) line (col + 1) with
    | .error e => .error e
    | .ok (i2, l2, c2) => .ok (stringStep src idx i2 l2 c2)
  else if codeAt src idx = PERCENT_CHARACTER ∧
      (codeAt src (idx + 1) = 'q'.toNat ∨
        codeAt src (idx + 1) = 'w'.toNat) then
    match scanBody (closingDelimiter (codeAt src (idx + 2)))
        (str "%q/%w literal too long") (str "unterminated %q/%w literal")
        ⟨line, col⟩ ph (src.drop (idx + 3)) 0 (idx + 3) line (col + 3) with
    | .error e => .error e
    | .ok (i2, l2, c2) => .ok (percentStep src idx i2 l2 c2)
  else if codeAt src idx = LEFT_CURLY_BRACE ∨
      codeAt src idx = RIGHT_CURLY_BRACE ∨
      codeAt src idx = LESS_THAN_CHARACTER ∨
      codeAt src idx = GREATER_THAN_CHARACTER ∨
      codeAt src idx = MINUS_CHARACTER ∨ codeAt src idx = PLUS_CHARACTER ∨
      codeAt src idx = AMPERSAND_CHARACTER ∨
      codeAt src idx = ASTERISK_CHARACTER ∨
      codeAt src idx = FORWARD_SLASH_CHARACTER ∨
      codeAt src idx = SEMICOLON_CHARACTER then
    .ok (skipOneStep idx line col)
  else if isIdentStartCode (codeAt src idx) then
    .ok (identStep src idx line col)
  else if isDigitCode (codeAt src idx) then
    .ok (intStep src idx line col)
  else
    .error ⟨str "unknown character", idx, line, col, ph, none⟩

/-- `push`: append a token unless the quota is reached. -/
def pushTok (acc : List Token) (idx line col : Nat) (t : Token) :
    Except RubyDslError (List Token) :=
  if acc.length ≥ MAX_TOKENS then
    .error ⟨str "token quota exceeded", idx, line, col, previousHexOf acc, none⟩
  else .ok (t :: acc)

/-- After the main loop: push the `EndOfFile` token and return the tokens
in source order. -/
def finishLex (src : Str) (idx line col : Nat) (acc : List Token) :
    Except RubyDslError (List Token) :=
  match pushTok acc idx line col ⟨.EndOfFile, slice src idx idx,
      idx, idx, line, col⟩ with
  | .error e => .error e
  | .ok acc => .ok acc.reverse

/-- The tokenizer main loop.  The fuel models the iteration budget of the
source (`iterations > source.length * MAX_ITERATIONS` throws), so running
out of fuel with input left is exactly the `runaway lexer` error.  Tokens
are accumulated in reverse. -/
def lexLoop (src : Str) : Nat → Nat → Nat → Nat → List Token →
    Except RubyDslError (List Token)
  | 0, idx, line, col, acc =>
    if idx < src.length then
      .error ⟨str "runaway lexer", idx, line, col, previousHexOf acc, none⟩
    else finishLex src idx line col acc
  | fuel + 1, idx, line, col, acc =>
    if idx < src.length then
      match lexStep src idx line col (previousHexOf acc) with
      | .error e => .error e
      | .ok (.skip i l c) => lexLoop src fuel i l c acc
      | .ok (.emit t pi pl pc i l c) =>
        match pushTok acc pi pl pc t with
        | .error e => .error e
        | .ok acc => lexLoop src fuel i l c acc
    else finishLex src idx line col acc

/-- The tokenizer. -/
def tokenize (src : Str) : Except RubyDslError (List Token) :=
  lexLoop src (src.length * MAX_ITERATIONS) 0 1 1 []

/-! The parser's data model. -/

structure GemDeclaration where
  name : Str
  versions : List Str
  git : Option Str
  path : Option Str
  require : Option Bool
  groups : Option (List Str)
  platforms : List Str
deriving DecidableEq, Repr

structure ParseOutput where
  selfName : Option Str
  selfVersion : Option Str
  runtime : List GemDeclaration
  development : List GemDeclaration
deriving DecidableEq, Repr

def emptyOutput : ParseOutput := ⟨none, none, [], []⟩

/-- Parser state: token cursor and block depth, plus the output under
construction. -/
structure PState where
  cursor : Nat
  depth : Nat
  out : ParseOutput
deriving DecidableEq, Repr

/-- Parser failures: a thrown `RubyDslError`, the JS crash from reading a
field of `tokens[cursor]` past the end of the array, or exhaustion of the
fuel bounding the model's recursion (the source loops are unbounded). -/
inductive PErr where
  | dsl (e : RubyDslError)
  | typeErr
  | outOfFuel
deriving DecidableEq, Repr

/-- `this.tokens[this.cursor]` with a field access, crashing out of range. -/
def peekT (toks : List Token) (c : Nat) : Except PErr Token :=
  match toks.get? c with
  | some t => .ok t
  | none => .error .typeErr

/-- `this.match(kind)`; returns whether it matched and the new cursor. -/
def matchK (toks : List Token) (k : TokenKind) (c : Nat) :
    Except PErr (Bool × Nat) :=
  match peekT toks c with
  | .error e => .error e
  | .ok t => if t.kind = k then .ok (true, c + 1) else .ok (false, c)

/-- `this.matchWord(word)`. -/
def matchWord (toks : List Token) (w : Str) (c : Nat) :
    Except PErr (Bool × Nat) :=
  match peekT toks c with
  | .error e => .error e
  | .ok t =>
    if t.kind = .Identifier ∧ t.text = w then .ok (true, c + 1)
    else .ok (false, c)

/-- `this.matchSymbol(sym)`: compares token text only. -/
def matchSymbol (toks : List Token) (sym : Str) (c : Nat) :
    Except PErr (Bool × Nat) :=
  match peekT toks c with
  | .error e => .error e
  | .ok t => if t.text = sym then .ok (true, c + 1) else .ok (false, c)

/-- `s.includes(pat)`. -/
def includesStr (s pat : Str) : Bool := decide (List.IsInfix pat s)

/-- `this.throwError(message)`: the error is located at the previous
token. -/
def throwErrAt (toks : List Token) (msg : Str) (c : Nat) :
    Except PErr α :=
  match c with
  | 0 => .error .typeErr
  | c' + 1 =>
    match toks.get? c' with
    | none => .error .typeErr
    | some p => .error (.dsl ⟨msg, p.endPos, p.line, p.column,
        hexOfText p.text, none⟩)

/-- `.replace(/^:/, '')`. -/
def dropLeadingColon : Str → Str
  | c :: rest => if c = colonChar then rest else c :: rest
  | [] => []

/-! `skip` helpers; these touch only the cursor in the source, so they are
modelled as functions on the cursor alone. -/

/-- Advance while the current token is neither `NewLine` nor `EndOfFile`. -/
def skipToNl (toks : List Token) : Nat → Nat → Except PErr Nat
  | 0, _ => .error .outOfFuel
  | fuel + 1, c =>
    match peekT toks c with
    | .error e => .error e
    | .ok t =>
      if t.kind = .NewLine ∨ t.kind = .EndOfFile then .ok c
      else skipToNl toks fuel (c + 1)

/-- `this.skipLine()`. -/
def skipLine (toks : List Token) (fuel : Nat) (c : Nat) : Except PErr Nat :=
  match matchK toks .If c with
  | .error e => .error e
  | .ok (isIf, c) =>
    match (if isIf then skipToNl toks fuel c else .ok c) with
    | .error e => .error e
    | .ok c =>
      match skipToNl toks fuel c with
      | .error e => .error e
      | .ok c =>
        match matchK toks .NewLine c with
        | .error e => .error e
        | .ok (_, c) => .ok c

/-- `this.skipBlock()` (the loop, with its running depth). -/
def skipBlock (toks : List Token) : Nat → Nat → Nat → Except PErr Nat
  | 0, _, _ => .error .outOfFuel
  | fuel + 1, depth, c =>
    if depth = 0 then .ok c
    else
      match peekT toks c with
      | .error e => .error e
      | .ok t =>
        if t.kind = .EndOfFile then .ok c
        else if t.kind = .Do ∨ t.kind = .LeftParen then
          skipBlock toks fuel (depth + 1) (c + 1)
        else if t.kind = .End ∨ t.kind = .RightParen then
          skipBlock toks fuel (depth - 1) (c + 1)
        else skipBlock toks fuel depth (c + 1)

/-- `this.labels()`. -/
def labels (toks : List Token) : Nat → Nat → Except PErr (List Str × Nat)
  | 0, _ => .error .outOfFuel
  | fuel + 1, c =>
    match peekT toks c with
    | .error e => .error e
    | .ok t =>
      let item? : Option Str :=
        if t.kind = .Symbol ∨ t.kind = .String then some (strip t.text)
        else if t.kind = .Identifier then some t.text
        else none
      match item? with
      | none => .ok ([], c)
      | some item =>
        match matchK toks .Comma (c + 1) with
        | .error e => .error e
        | .ok (isComma, c') =>
          if isComma then
            match labels toks fuel c' with
            | .error e => .error e
            | .ok (rest, c'') => .ok (item :: rest, c'')
          else .ok ([item], c')

/-- `this.looksSpecNew()`: lookahead for `(Gem|Pod)::(Specification|Spec)
.new`; the cursor is restored on failure. -/
def looksSpecNew (toks : List Token) (c : Nat) : Except PErr (Bool × Nat) :=
  match matchWord toks (str "Gem") c with
  | .error e => .error e
  | .ok (g, c1) =>
    match (if g then .ok (true, c1) else matchWord toks (str "Pod") c1) with
    | .error e => .error e
    | .ok (b1, c1) =>
      if ¬ b1 then .ok (false, c)
      else
        match matchK toks .Colon c1 with
        | .error e => .error e
        | .ok (b2, c2) =>
          if ¬ b2 then .ok (false, c)
          else
            match matchK toks .Colon c2 with
            | .error e => .error e
            | .ok (b3, c3) =>
              if ¬ b3 then .ok (false, c)
              else
                match matchWord toks (str "Specification") c3 with
                | .error e => .error e
                | .ok (s, c4) =>
                  match (if s then .ok (true, c4)
                    else matchWord toks (str "Spec") c4) with
                  | .error e => .error e
                  | .ok (b4, c4) =>
                    if ¬ b4 then .ok (false, c)
                    else
                      match matchK toks .Dot c4 with
                      | .error e => .error e
                      | .ok (b5, c5) =>
                        if ¬ b5 then .ok (false, c)
                        else
                          match matchWord toks (str "new") c5 with
                          | .error e => .error e
                          | .ok (b6, c6) =>
                            if ¬ b6 then .ok (false, c) else .ok (true, c6)

/-! `parseDecl` and its argument-list loop. -/

/-- Accumulator of the argument-list loop of `parseDecl` (the local
mutable variables of the source). -/
structure DeclAcc where
  versions : List Str
  git : Option Str
  path : Option Str
  req : Option Bool
  inlineGroups : List Str
  inlinePlatforms : List Str
deriving DecidableEq, Repr

def emptyDeclAcc : DeclAcc := ⟨[], none, none, none, [], []⟩

/-- The catch-all key handler of the argument-list loop (keys other than
`group` and `platforms`): normalize the value token and record it for
`git`/`github`, `path` and `require`. -/
def applyKeyVal (key : Str) (vt : Token) (acc : DeclAcc) : DeclAcc :=
  let val := strip vt.text
  if key = str "git" ∨ key = str "github" then { acc with git := some val }
  else if key = str "path" then { acc with path := some val }
  else if key = str "require" then
    { acc with req := some (val ≠ str "false") }
  else acc

/-- The `[...]` version-array loop inside `parseDecl`. -/
def bracketVersions (toks : List Token) : Nat → Nat →
    Except PErr (List Str × Nat)
  | 0, _ => .error .outOfFuel
  | fuel + 1, c =>
    match peekT toks c with
    | .error e => .error e
    | .ok t =>
      if t.kind = .String then
        match matchK toks .Comma (c + 1) with
        | .error e => .error e
        | .ok (isComma, c2) =>
          if isComma then
            match bracketVersions toks fuel c2 with
            | .error e => .error e
            | .ok (rest, c3) => .ok (trimStr (strip t.text) :: rest, c3)
          else .ok ([trimStr (strip t.text)], c2)
      else .ok ([], c)

/-- The `platforms: [...]` symbol loop inside `parseDecl`. -/
def platformSyms (toks : List Token) : Nat → Nat →
    Except PErr (List Str × Nat)
  | 0, _ => .error .outOfFuel
  | fuel + 1, c =>
    match peekT toks c with
    | .error e => .error e
    | .ok t =>
      if t.kind = .Symbol then
        match matchK toks .Comma (c + 1) with
        | .error e => .error e
        | .ok (isComma, c2) =>
          if isComma then
            match platformSyms toks fuel c2 with
            | .error e => .error e
            | .ok (rest, c3) => .ok (strip t.text :: rest, c3)
          else .ok ([strip t.text], c2)
      else .ok ([], c)

/-- The comma-separated argument-list loop of `parseDecl`. -/
def declLoop (toks : List Token) : Nat → DeclAcc → Nat →
    Except PErr (DeclAcc × Nat)
  | 0, _, _ => .error .outOfFuel
  | fuel + 1, acc, c =>
    match matchK toks .Comma c with
    | .error e => .error e
    | .ok (isComma, c) =>
      if ¬ isComma then .ok (acc, c)
      else
        match peekT toks c with
        | .error e => .error e
        | .ok t =>
          if t.kind = .String then
            let lit := t.text
            let vs := if lit.take 2 = [percentChar, 'w'] then fromPercentW lit
              else [trimStr (strip lit)]
            declLoop toks fuel { acc with versions := acc.versions ++ vs }
              (c + 1)
          else
            match matchK toks .LeftBracket c with
            | .error e => .error e
            | .ok (isLB, c) =>
              if isLB then
                match bracketVersions toks fuel c with
                | .error e => .error e
                | .ok (vs, c) =>
                  match matchK toks .RightBracket c with
                  | .error e => .error e
                  | .ok (_, c) =>
                    declLoop toks fuel
                      { acc with versions := acc.versions ++ vs } c
              else
                let key? : Option Str :=
                  if t.kind = .Symbol then
                    some (dropLeadingColon (strip t.text))
                  else if t.kind = .Identifier then some t.text
                  else none
                match key? with
                | none => .ok (acc, c)
                | some key =>
                  match matchK toks .Equals (c + 1) with
                  | .error e => .error e
                  | .ok (isEq, c) =>
                    match (if isEq then (.ok (true, c) : Except PErr (Bool × Nat))
                      else matchK toks .Colon c) with
                    | .error e => .error e
                    | .ok (isSep, c) =>
                      if ¬ isSep then .ok (acc, c)
                      else if key = str "group" then
                        match peekT toks c with
                        | .error e => .error e
                        | .ok t3 =>
                          if t3.kind = .Identifier then
                            declLoop toks fuel { acc with inlineGroups :=
                              acc.inlineGroups ++ [t3.text] } (c + 1)
                          else if t3.kind = .Symbol then
                            declLoop toks fuel { acc with inlineGroups :=
                              acc.inlineGroups ++ [strip t3.text] } (c + 1)
                          else declLoop toks fuel acc c
                      else if key = str "platforms" then
                        match matchK toks .LeftBracket c with
                        | .error e => .error e
                        | .ok (isLB, c) =>
                          if isLB then
                            match platformSyms toks fuel c with
                            | .error e => .error e
                            | .ok (syms, c) =>
                              match matchK toks .RightBracket c with
                              | .error e => .error e
                              | .ok (_, c) =>
                                declLoop toks fuel { acc with
                                  inlinePlatforms :=
                                    acc.inlinePlatforms ++ syms } c
                          else declLoop toks fuel acc c
                      else
                        match peekT toks c with
                        | .error e => .error e
                        | .ok vt =>
                          declLoop toks fuel (applyKeyVal key vt acc) (c + 1)

/-- `this.parseDecl(groups, platforms)`. -/
def parseDecl (toks : List Token) (fuel : Nat) (groups platforms : List Str)
    (c : Nat) : Except PErr (GemDeclaration × Nat) :=
  match matchK toks .LeftParen c with
  | .error e => .error e
  | .ok (hasParens, c) =>
    match peekT toks c with
    | .error e => .error e
    | .ok nameTok =>
      let c := c + 1
      if nameTok.kind ≠ .String ∧ nameTok.kind ≠ .Symbol ∧
          nameTok.kind ≠ .Identifier then
        throwErrAt toks (str "name literal expected") c
      else
        let name := if nameTok.kind = .Identifier then nameTok.text
          else strip nameTok.text
        match matchK toks .Dot c with
        | .error e => .error e
        | .ok (isDot, c) =>
          match (if isDot then
              (match matchWord toks (str "freeze") c with
               | .error e => .error e
               | .ok (_, c2) => .ok c2)
            else (.ok c : Except PErr Nat)) with
          | .error e => .error e
          | .ok c =>
            match declLoop toks fuel emptyDeclAcc c with
            | .error e => .error e
            | .ok (acc, c) =>
              match (if hasParens then matchK toks .RightParen c
                else .ok (false, c)) with
              | .error e => .error e
              | .ok (_, c) =>
                .ok ({ name
                       versions := acc.versions.map formatVersion
                       git := acc.git
                       path := acc.path
                       require := acc.req
                       groups := some (groups ++ acc.inlineGroups)
                       platforms := platforms ++ acc.inlinePlatforms }, c)

/-- The development/test classification of the `gem`/`pod` branch. -/
def hasDevGroups (d : GemDeclaration) : Bool :=
  match d.groups with
  | none => false
  | some gs => gs.any fun g => g = str "development" ∨ g = str "test"

/-- `targetArray.push(decl)`. -/
def pushDecl (isDev : Bool) (d : GemDeclaration) (o : ParseOutput) :
    ParseOutput :=
  if isDev then { o with development := o.development ++ [d] }
  else { o with runtime := o.runtime ++ [d] }

/-- The `gem`/`pod` branch of `statement`, after the word was consumed:
parse the declaration, classify it, handle a trailing conditional, push,
and discard the rest of the line. -/
def gemTail (toks : List Token) (fuel : Nat) (groups platforms : List Str)
    (st : PState) : Except PErr PState :=
  match parseDecl toks fuel groups platforms st.cursor with
  | .error e => .error e
  | .ok (decl, c) =>
    let hasDev := hasDevGroups decl
    let decl1 := if hasDev then { decl with groups := none } else decl
    match peekT toks c with
    | .error e => .error e
    | .ok t =>
      match (if t.kind = .If then
          (match skipToNl toks fuel (c + 1) with
           | .error e => .error e
           | .ok c2 => .ok ({ decl1 with groups := none }, c2))
        else (.ok (decl1, c) : Except PErr (GemDeclaration × Nat))) with
      | .error e => .error e
      | .ok (decl2, c3) =>
        match skipLine toks fuel c3 with
        | .error e => .error e
        | .ok c4 =>
          .ok { st with cursor := c4, out := pushDecl hasDev decl2 st.out }

/-- `this.enter()`. -/
def enter (toks : List Token) (st : PState) : Except PErr PState :=
  if st.depth + 1 > MAX_BLOCK_DEPTH then
    throwErrAt toks (str "nesting too deep") st.cursor
  else .ok { st with depth := st.depth + 1 }

/-- One spec-block statement (`parseSpecStatement`). -/
def parseSpecStatement (toks : List Token) (fuel : Nat)
    (blockVar : Option Str) (st : PState) : Except PErr PState :=
  match peekT toks st.cursor with
  | .error e => .error e
  | .ok t =>
    if t.kind = .Identifier ∧ (blockVar = none ∨ blockVar = some t.text) then
      match matchK toks .Dot (st.cursor + 1) with
      | .error e => .error e
      | .ok (isDot, c) =>
        if ¬ isDot then
          match skipLine toks fuel c with
          | .error e => .error e
          | .ok c => .ok { st with cursor := c }
        else
          match peekT toks c with
          | .error e => .error e
          | .ok method =>
            let c := c + 1
            if method.kind ≠ .Identifier then
              match skipLine toks fuel c with
              | .error e => .error e
              | .ok c => .ok { st with cursor := c }
            else
              match matchK toks .Equals c with
              | .error e => .error e
              | .ok (isEq, c) =>
                match peekT toks c with
                | .error e => .error e
                | .ok t2 =>
                  if isEq ∧ t2.kind = .String then
                    let lit := strip t2.text
                    let out :=
                      if method.text = str "name" then
                        { st.out with selfName := some lit }
                      else if method.text = str "version" then
                        { st.out with selfVersion := some lit }
                      else st.out
                    match skipLine toks fuel (c + 1) with
                    | .error e => .error e
                    | .ok c => .ok { st with cursor := c, out := out }
                  else if method.text = str "send" then
                    match matchK toks .LeftParen c with
                    | .error e => .error e
                    | .ok (_, c) =>
                      match peekT toks c with
                      | .error e => .error e
                      | .ok t3 =>
                        if t3.kind = .Symbol then
                          let sym := dropLeadingColon (strip t3.text)
                          let c := c + 1
                          if includesStr sym (str "dependency") then
                            let isDev := includesStr sym (str "development")
                            match matchK toks .Comma c with
                            | .error e => .error e
                            | .ok (_, c) =>
                              match parseDecl toks fuel [] [] c with
                              | .error e => .error e
                              | .ok (decl, c) =>
                                match skipLine toks fuel c with
                                | .error e => .error e
                                | .ok c =>
                                  .ok { st with cursor := c, out := pushDecl isDev decl st.out }
                          else
                            match skipLine toks fuel c with
                            | .error e => .error e
                            | .ok c => .ok { st with cursor := c }
                        else
                          match skipLine toks fuel c with
                          | .error e => .error e
                          | .ok c => .ok { st with cursor := c }
                  else if method.text = str "add_dependency" ∨
                      method.text = str "add_runtime_dependency" ∨
                      method.text = str "add_development_dependency" ∨
                      method.text = str "dependency" then
                    let isDev := includesStr method.text (str "development")
                    match parseDecl toks fuel [] [] c with
                    | .error e => .error e
                    | .ok (decl, c) =>
                      let decl := if method.text = str "dependency" then
                        { decl with groups := none } else decl
                      match skipLine toks fuel c with
                      | .error e => .error e
                      | .ok c =>
                        .ok { st with cursor := c, out := pushDecl isDev decl st.out }
                  else
                    match skipLine toks fuel c with
                    | .error e => .error e
                    | .ok c => .ok { st with cursor := c }
    else
      match skipLine toks fuel st.cursor with
      | .error e => .error e
      | .ok c => .ok { st with cursor := c }

/-- The statement loop inside the first branch of an `if` in a spec
block. -/
def specIfBody (toks : List Token) : Nat → Option Str → PState →
    Except PErr PState
  | 0, _, _ => .error .outOfFuel
  | fuel + 1, blockVar, st =>
    match peekT toks st.cursor with
    | .error e => .error e
    | .ok t =>
      if t.kind = .EndOfFile ∨ t.kind = .Else ∨ t.kind = .End then .ok st
      else
        match parseSpecStatement toks fuel blockVar st with
        | .error e => .error e
        | .ok st => specIfBody toks fuel blockVar st

/-- Skip everything up to (not including) `End` or `EndOfFile` (the
discarded `else` branch of a spec-block `if`). -/
def skipToEndTok (toks : List Token) : Nat → Nat → Except PErr Nat
  | 0, _ => .error .outOfFuel
  | fuel + 1, c =>
    match peekT toks c with
    | .error e => .error e
    | .ok t =>
      if t.kind = .EndOfFile ∨ t.kind = .End then .ok c
      else skipToEndTok toks fuel (c + 1)

/-- The main statement loop of `parseSpec`. -/
def specLoop (toks : List Token) : Nat → Option Str → PState →
    Except PErr PState
  | 0, _, _ => .error .outOfFuel
  | fuel + 1, blockVar, st =>
    match peekT toks st.cursor with
    | .error e => .error e
    | .ok t =>
      if t.kind = .EndOfFile then .ok st
      else
        match matchK toks .End st.cursor with
        | .error e => .error e
        | .ok (isEnd, c) =>
          if isEnd then .ok { st with cursor := c }
          else
            match matchK toks .If c with
            | .error e => .error e
            | .ok (isIf, c) =>
              if isIf then
                match skipToNl toks fuel c with
                | .error e => .error e
                | .ok c =>
                  match matchK toks .NewLine c with
                  | .error e => .error e
                  | .ok (_, c) =>
                    match specIfBody toks fuel blockVar
                        { st with cursor := c } with
                    | .error e => .error e
                    | .ok st =>
                      match matchK toks .Else st.cursor with
                      | .error e => .error e
                      | .ok (isElse, c2) =>
                        if isElse then
                          match skipToEndTok toks fuel c2 with
                          | .error e => .error e
                          | .ok c3 =>
                            match matchK toks .End c3 with
                            | .error e => .error e
                            | .ok (_, c4) =>
                              specLoop toks fuel blockVar
                                { st with cursor := c4 }
                        else
                          match matchK toks .End c2 with
                          | .error e => .error e
                          | .ok (_, c4) =>
                            specLoop toks fuel blockVar
                              { st with cursor := c4 }
              else
                match parseSpecStatement toks fuel blockVar
                    { st with cursor := c } with
                | .error e => .error e
                | .ok st => specLoop toks fuel blockVar st

/-- `this.parseSpec(out)`. -/
def parseSpec (toks : List Token) (fuel : Nat) (st : PState) :
    Except PErr PState :=
  match peekT toks st.cursor with
  | .error e => .error e
  | .ok t =>
    let st := if t.kind = .String then
        { st with cursor := st.cursor + 1, out := { st.out with selfName := some (strip t.text) } }
      else st
    match matchK toks .Do st.cursor with
    | .error e => .error e
    | .ok (isDo, c) =>
      match (if isDo then
          (match matchSymbol toks [Char.ofNat 124] c with
           | .error e => .error e
           | .ok (isPipe, c) =>
             if isPipe then
               match peekT toks c with
               | .error e => .error e
               | .ok t2 =>
                 let (bv, c) := if t2.kind = .Identifier then
                     (some t2.text, c + 1)
                   else (none, c)
                 match matchSymbol toks [Char.ofNat 124] c with
                 | .error e => .error e
                 | .ok (_, c) =>
                   match enter toks { st with cursor := c } with
                   | .error e => .error e
                   | .ok st => .ok (bv, st)
             else
               match enter toks { st with cursor := c } with
               | .error e => .error e
               | .ok st => .ok ((none : Option Str), st))
        else (.ok (none, { st with cursor := c }) :
          Except PErr (Option Str × PState))) with
      | .error e => .error e
      | .ok (blockVar, st) =>
        match specLoop toks fuel blockVar st with
        | .error e => .error e
        | .ok st =>
          if st.depth ≠ 0 then .ok { st with depth := st.depth - 1 }
          else .ok st

mutual

/-- `this.statement(out, groups, platforms)`. -/
def statement (toks : List Token) : Nat → List Str → List Str → PState →
    Except PErr PState
  | 0, _, _, _ => .error .outOfFuel
  | fuel + 1, groups, platforms, st =>
    match matchWord toks (str "gem") st.cursor with
    | .error e => .error e
    | .ok (g, c) =>
      match (if g then .ok (true, c) else matchWord toks (str "pod") c) with
      | .error e => .error e
      | .ok (isGP, c) =>
        if isGP then gemTail toks fuel groups platforms { st with cursor := c }
        else
          match matchWord toks (str "group") c with
          | .error e => .error e
          | .ok (gr, c) =>
            match (if gr then .ok (true, c)
              else matchWord toks (str "target") c) with
            | .error e => .error e
            | .ok (isGT, c) =>
              if isGT then
                match labels toks fuel c with
                | .error e => .error e
                | .ok (newGroups, c) =>
                  match matchK toks .Do c with
                  | .error e => .error e
                  | .ok (isDo, c) =>
                    if isDo then
                      match enter toks { st with cursor := c } with
                      | .error e => .error e
                      | .ok st =>
                        match blockLoop toks fuel newGroups platforms st with
                        | .error e => .error e
                        | .ok st => .ok { st with depth := st.depth - 1 }
                    else .ok { st with cursor := c }
              else
                match matchWord toks (str "platforms") c with
                | .error e => .error e
                | .ok (isPl, c) =>
                  if isPl then
                    match labels toks fuel c with
                    | .error e => .error e
                    | .ok (pls, c) =>
                      match matchK toks .Do c with
                      | .error e => .error e
                      | .ok (isDo, c) =>
                        if isDo then
                          match enter toks { st with cursor := c } with
                          | .error e => .error e
                          | .ok st =>
                            match blockLoop toks fuel groups pls st with
                            | .error e => .error e
                            | .ok st => .ok { st with depth := st.depth - 1 }
                        else .ok { st with cursor := c }
                  else
                    match matchWord toks (str "source") c with
                    | .error e => .error e
                    | .ok (isSrc, c) =>
                      if isSrc then
                        match skipLine toks fuel c with
                        | .error e => .error e
                        | .ok c => .ok { st with cursor := c }
                      else
                        match looksSpecNew toks c with
                        | .error e => .error e
                        | .ok (isSpec, c) =>
                          if isSpec then
                            parseSpec toks fuel { st with cursor := c }
                          else
                            match matchK toks .Do c with
                            | .error e => .error e
                            | .ok (isDo, c) =>
                              match (if isDo then .ok (true, c)
                                else matchK toks .LeftParen c) with
                              | .error e => .error e
                              | .ok (isDoLp, c) =>
                                if isDoLp then
                                  match skipBlock toks fuel 1 c with
                                  | .error e => .error e
                                  | .ok c => .ok { st with cursor := c }
                                else
                                  match skipLine toks fuel st.cursor with
                                  | .error e => .error e
                                  | .ok c => .ok { st with cursor := c }

/-- The `while (!this.match(End)) this.statement(...)` loop of the
`group`/`target`/`platforms` branches. -/
def blockLoop (toks : List Token) : Nat → List Str → List Str → PState →
    Except PErr PState
  | 0, _, _, _ => .error .outOfFuel
  | fuel + 1, groups, platforms, st =>
    match matchK toks .End st.cursor with
    | .error e => .error e
    | .ok (isEnd, c) =>
      if isEnd then .ok { st with cursor := c }
      else
        match statement toks fuel groups platforms st with
        | .error e => .error e
        | .ok st => blockLoop toks fuel groups platforms st

end

/-- The top-level `parse` loop. -/
def parseLoop (toks : List Token) : Nat → PState → Except PErr PState
  | 0, _ => .error .outOfFuel
  | fuel + 1, st =>
    match peekT toks st.cursor with
    | .error e => .error e
    | .ok t =>
      if t.kind = .EndOfFile then .ok st
      else
        match statement toks fuel [] [] st with
        | .error e => .error e
        | .ok st => parseLoop toks fuel st

/-- Fuel supplied to a `Parser.parse` run.  Every loop of the source
consumes at least one token per iteration except for the degenerate states
exhibited for claim C3, so this budget is exhausted only by runs that do
not terminate. -/
def parseFuel (toks : List Token) : Nat := 64 * (toks.length + 1)

/-- `new Parser(tokens).parse()`. -/
def Parser.parse (toks : List Token) : Except PErr ParseOutput :=
  match parseLoop toks (parseFuel toks) ⟨0, 0, emptyOutput⟩ with
  | .error e => .error e
  | .ok st => .ok st.out

/-- `parseRubyDsl(source)`. -/
def parseRubyDsl (source : Str) : Except PErr ParseOutput :=
  match tokenize source with
  | .error e => .error (.dsl e)
  | .ok toks => Parser.parse toks

/-! Theorems. -/

/-- The head shapes on which `strip` is not the identity: a `%q`/`%w`
prefix, a colon followed by at least one character, or a leading quote. -/
def stripSpecialShape (s : Str) : Bool :=
  s.take 2 = [percentChar, 'q'] || s.take 2 = [percentChar, 'w'] ||
  (match s with
   | [] => false
   | c :: rest => (decide (c = colonChar) && !rest.isEmpty) ||
       c = squote || c = dquote)

/-- `strip` returns its argument unchanged whenever the argument has none
of the special head shapes. -/
theorem strip_eq_self_of_not_special (s : Str)
    (h : stripSpecialShape s = false) : strip s = s := by
  cases s with
  | nil => rfl
  | cons c rest =>
    have hq : ¬(List.take 2 (c :: rest) = [percentChar, 'q'] ∨
        List.take 2 (c :: rest) = [percentChar, 'w']) := by
      intro hc
      rcases hc with hc | hc <;> simp [stripSpecialShape, hc] at h
    have hcol : ¬(c = colonChar ∧ rest ≠ []) := by
      rintro ⟨rfl, hr⟩
      have he : rest.isEmpty = false := by
        cases rest with
        | nil => exact absurd rfl hr
        | cons a l => rfl
      simp [stripSpecialShape, he] at h
    have hquote : ¬(c = squote ∨ c = dquote) := by
      intro hc
      rcases hc with rfl | rfl <;> simp [stripSpecialShape] at h
    unfold strip
    rw [if_neg hq]
    split
    next heq => cases heq
    next c1 rest1 heq =>
      cases heq
      rw [if_neg hcol, if_neg hquote]

/-- Claim C8 counterexample: `strip` is not idempotent; on the input
`::x` it first yields `:x` and a second application yields `x`. -/
theorem c8_strip_not_idempotent :
    ¬ strip (strip (str "::x")) = strip (str "::x") := by decide

/-- Claim C8 (amended): `strip (strip s) = strip s` holds whenever the
result of the first normalization does not itself begin with a quote, a
colon followed by more text, or a `%q`/`%w` prefix; without that proviso
idempotence fails (see the counterexample). -/
theorem c8_strip_idempotent_on_plain (s : Str)
    (h : stripSpecialShape (strip s) = false) :
    strip (strip s) = strip s :=
  strip_eq_self_of_not_special _ h

/-- Witness for C8: normalizing the quoted literal `"rails"` yields a
plain name, on which a second `strip` is a no-op. -/
theorem c8_strip_idempotent_on_plain_witness :
    stripSpecialShape (strip (str "\"rails\"")) = false ∧
      strip (strip (str "\"rails\"")) = strip (str "\"rails\"") :=
  ⟨by decide, c8_strip_idempotent_on_plain (str "\"rails\"") (by decide)⟩

/-- Claim C4 counterexample: in `gem "a", require: false` the value of the
`require` key is the bare identifier `false`, and the emitted declaration
has `require = false`, not `require = true` as the claim states. -/
theorem c4_bare_false_counterexample :
    parseRubyDsl (str "gem \"a\", require: false\n") =
      .ok ⟨none, none,
        [⟨str "a", [], none, none, some false, some [], []⟩], []⟩ := by
  rfl

/-- Claim C4 (amended): the `require` key sets the flag to `false`
exactly when the normalized text of the value token equals `false` —
whether that token is a string literal, a symbol, or a bare identifier. -/
theorem c4_require_flag (vt : Token) (acc : DeclAcc) :
    (applyKeyVal (str "require") vt acc).req = some false ↔
      strip vt.text = str "false" := by
  unfold applyKeyVal
  rw [if_neg (by decide), if_neg (by decide), if_pos rfl]
  simp [decide_eq_false_iff_not]

/-- Claim C5 counterexample: `gem ""` parses successfully and produces a
declaration whose name is the empty string. -/
theorem c5_empty_name_counterexample :
    parseRubyDsl (str "gem \"\"\n") =
      .ok ⟨none, none, [⟨[], [], none, none, none, some [], []⟩], []⟩ := by
  rfl

/-- The input of claim C6 (the quoted name is spelled with explicit
single-quote characters). -/
def c6Input : Str :=
  str "Gem::Specification.new do |s|\n  s.add_runtime_dependency " ++
    squote :: str "foo" ++ squote :: str ", %w[~>1.0 >=1.5]\nend"

/-- Claim C6: the three-line gemspec with a `%w` version array yields one
runtime declaration named `foo` with versions `~> 1.0`, `>= 1.5`, empty
groups and platforms, and no development declarations. -/
theorem c6_gemspec_percent_w :
    parseRubyDsl c6Input =
      .ok ⟨none, none,
        [⟨str "foo", [str "~> 1.0", str ">= 1.5"], none, none, none,
          some [], []⟩], []⟩ := by
  rfl

/-- `throwError` never produces a success value. -/
theorem throwErrAt_ne_ok {α : Type} (toks : List Token) (msg : Str)
    (c : Nat) (x : α) : throwErrAt toks msg c ≠ .ok x := by
  unfold throwErrAt
  split
  · simp
  · split <;> simp

/-- The groups of a declaration returned by `parseDecl` are always present
and always the outer groups followed by the inline ones. -/
theorem parseDecl_groups (toks : List Token) (fuel : Nat)
    (groups platforms : List Str) (c0 c : Nat) (decl : GemDeclaration)
    (h : parseDecl toks fuel groups platforms c0 = .ok (decl, c)) :
    ∃ inline, decl.groups = some (groups ++ inline) := by
  simp only [parseDecl] at h
  repeat' split at h
  all_goals first
    | exact Except.noConfusion h
    | exact absurd h (throwErrAt_ne_ok _ _ _ _)
    | (simp only [Except.ok.injEq, Prod.mk.injEq] at h
       exact ⟨_, by rw [← h.1]⟩)

/-- Claim C1: whenever the `gem`/`pod` branch succeeds, the parsed
declaration carries `groups = outer ++ inline`; it is appended to the
development list, with its groups field removed, exactly when those
effective groups contain `development` or `test`, and to the runtime list
otherwise (where only a trailing conditional can remove the groups
field). -/
theorem c1_gem_classification (toks : List Token) (fuel : Nat)
    (groups platforms : List Str) (st st' : PState)
    (h : gemTail toks fuel groups platforms st = .ok st') :
    ∃ decl c inline,
      parseDecl toks fuel groups platforms st.cursor = .ok (decl, c) ∧
      decl.groups = some (groups ++ inline) ∧
      hasDevGroups decl = ((groups ++ inline).any fun g =>
        g = str "development" ∨ g = str "test") ∧
      (hasDevGroups decl = true →
        st'.out.development =
          st.out.development ++ [{ decl with groups := none }] ∧
        st'.out.runtime = st.out.runtime) ∧
      (hasDevGroups decl = false →
        st'.out.development = st.out.development ∧
        ∃ d, st'.out.runtime = st.out.runtime ++ [d] ∧
          (d = decl ∨ d = { decl with groups := none })) := by
  simp only [gemTail] at h
  cases hp : parseDecl toks fuel groups platforms st.cursor with
  | error e => simp only [hp] at h; exact Except.noConfusion h
  | ok dc =>
    obtain ⟨decl, c⟩ := dc
    simp only [hp] at h
    obtain ⟨inline, hg⟩ := parseDecl_groups _ _ _ _ _ _ _ hp
    refine ⟨decl, c, inline, rfl, hg, by simp only [hasDevGroups, hg], ?_, ?_⟩
    · intro hdev
      simp only [hdev, reduceIte] at h
      cases hpk : peekT toks c with
      | error e => simp only [hpk] at h; exact Except.noConfusion h
      | ok t =>
        simp only [hpk] at h
        by_cases hIf : t.kind = .If
        · simp only [hIf, reduceIte] at h
          cases hskip : skipToNl toks fuel (c + 1) with
          | error e => simp only [hskip] at h; exact Except.noConfusion h
          | ok c2 =>
            simp only [hskip] at h
            cases hline : skipLine toks fuel c2 with
            | error e => simp only [hline] at h; exact Except.noConfusion h
            | ok c4 =>
              simp only [hline] at h
              obtain rfl : _ = st' := Except.ok.inj h
              constructor <;> simp [pushDecl]
        · simp only [hIf, reduceIte] at h
          cases hline : skipLine toks fuel c with
          | error e => simp only [hline] at h; exact Except.noConfusion h
          | ok c4 =>
            simp only [hline] at h
            obtain rfl : _ = st' := Except.ok.inj h
            constructor <;> simp [pushDecl]
    · intro hdev
      simp only [hdev, reduceIte] at h
      cases hpk : peekT toks c with
      | error e => simp only [hpk] at h; exact Except.noConfusion h
      | ok t =>
        simp only [hpk] at h
        by_cases hIf : t.kind = .If
        · simp only [hIf, reduceIte] at h
          cases hskip : skipToNl toks fuel (c + 1) with
          | error e => simp only [hskip] at h; exact Except.noConfusion h
          | ok c2 =>
            simp only [hskip] at h
            cases hline : skipLine toks fuel c2 with
            | error e => simp only [hline] at h; exact Except.noConfusion h
            | ok c4 =>
              simp only [hline] at h
              obtain rfl : _ = st' := Except.ok.inj h
              refine ⟨by simp [pushDecl], _, by simp [pushDecl], Or.inr rfl⟩
        · simp only [hIf, reduceIte] at h
          cases hline : skipLine toks fuel c with
          | error e => simp only [hline] at h; exact Except.noConfusion h
          | ok c4 =>
            simp only [hline] at h
            obtain rfl : _ = st' := Except.ok.inj h
            refine ⟨by simp [pushDecl], _, by simp [pushDecl], Or.inl rfl⟩

/-- Tokens for the C1 witness: the argument list of `gem "rails"` at the
top level. -/
def c1Toks : List Token :=
  [⟨.String, str "\"rails\"", 0, 7, 1, 1⟩, ⟨.NewLine, str "\n", 7, 8, 1, 8⟩,
   ⟨.EndOfFile, [], 8, 8, 2, 1⟩]

def c1St : PState := ⟨0, 0, emptyOutput⟩

def c1St' : PState :=
  ⟨2, 0, ⟨none, none,
    [⟨str "rails", [], none, none, none, some [], []⟩], []⟩⟩

/-- Witness for C1 at the concrete `gem "rails"` token stream. -/
theorem c1_gem_classification_witness :
    ∃ decl c inline,
      parseDecl c1Toks 8 [] [] c1St.cursor = .ok (decl, c) ∧
      decl.groups = some ([] ++ inline) ∧
      hasDevGroups decl = (([] ++ inline).any fun g =>
        g = str "development" ∨ g = str "test") ∧
      (hasDevGroups decl = true →
        c1St'.out.development =
          c1St.out.development ++ [{ decl with groups := none }] ∧
        c1St'.out.runtime = c1St.out.runtime) ∧
      (hasDevGroups decl = false →
        c1St'.out.development = c1St.out.development ∧
        ∃ d, c1St'.out.runtime = c1St.out.runtime ++ [d] ∧
          (d = decl ∨ d = { decl with groups := none })) :=
  c1_gem_classification c1Toks 8 [] [] c1St c1St' (by rfl)

/-- Claim C2: when the token after the argument list is `if`, the branch
discards tokens through end-of-line, strips the groups field regardless of
the classification, and still appends the declaration to the list picked
by the classification. -/
theorem c2_trailing_conditional (toks : List Token) (fuel : Nat)
    (groups platforms : List Str) (st st' : PState)
    (decl : GemDeclaration) (c : Nat) (t : Token)
    (hd : parseDecl toks fuel groups platforms st.cursor = .ok (decl, c))
    (ht : toks.get? c = some t) (hif : t.kind = .If)
    (h : gemTail toks fuel groups platforms st = .ok st') :
    st'.out = pushDecl (hasDevGroups decl) { decl with groups := none }
      st.out ∧
    ∃ c2, skipToNl toks fuel (c + 1) = .ok c2 ∧
      skipLine toks fuel c2 = .ok st'.cursor := by
  have hpk : peekT toks c = .ok t := by unfold peekT; rw [ht]
  simp only [gemTail, hd, hpk, hif, reduceIte] at h
  cases hskip : skipToNl toks fuel (c + 1) with
  | error e => simp only [hskip] at h; exact Except.noConfusion h
  | ok c2 =>
    simp only [hskip] at h
    cases hline : skipLine toks fuel c2 with
    | error e => simp only [hline] at h; exact Except.noConfusion h
    | ok c4 =>
      simp only [hline] at h
      obtain rfl : _ = st' := Except.ok.inj h
      refine ⟨?_, c2, rfl, hline⟩
      by_cases hdev : hasDevGroups decl = true
      · simp [pushDecl, hdev]
      · rw [Bool.not_eq_true] at hdev
        simp [pushDecl, hdev]

/-- Tokens for the C2 witness: `gem "couchdb", "0.2.2" if x`. -/
def c2Toks : List Token :=
  [⟨.String, str "\"couchdb\"", 0, 9, 1, 1⟩, ⟨.Comma, str ",", 9, 10, 1, 10⟩,
   ⟨.String, str "\"0.2.2\"", 11, 18, 1, 12⟩,
   ⟨.If, str "if", 19, 21, 1, 20⟩, ⟨.Identifier, str "x", 22, 23, 1, 23⟩,
   ⟨.NewLine, str "\n", 23, 24, 1, 24⟩, ⟨.EndOfFile, [], 24, 24, 2, 1⟩]

def c2St : PState := ⟨0, 0, emptyOutput⟩

def c2St' : PState :=
  ⟨6, 0, ⟨none, none,
    [⟨str "couchdb", [str "0.2.2"], none, none, none, none, []⟩], []⟩⟩

def c2Decl : GemDeclaration :=
  ⟨str "couchdb", [str "0.2.2"], none, none, none, some [], []⟩

/-- Witness for C2 at the concrete `gem "couchdb", "0.2.2" if x` token
stream. -/
theorem c2_trailing_conditional_witness :
    c2St'.out = pushDecl (hasDevGroups c2Decl)
      { c2Decl with groups := none } c2St.out ∧
    ∃ c2, skipToNl c2Toks 8 (3 + 1) = .ok c2 ∧
      skipLine c2Toks 8 c2 = .ok c2St'.cursor :=
  c2_trailing_conditional c2Toks 8 [] [] c2St c2St' c2Decl 3
    ⟨.If, str "if", 19, 21, 1, 20⟩ (by rfl) (by rfl) (by rfl) (by rfl)

/-! Claim C7: the token quota. -/

/-- `push` succeeds only below the token quota, and then grows the
accumulator by one. -/
theorem pushTok_ok_length (acc : List Token) (i l c : Nat) (t : Token)
    (acc' : List Token) (h : pushTok acc i l c t = .ok acc') :
    acc'.length = acc.length + 1 ∧ acc.length < MAX_TOKENS := by
  unfold pushTok at h
  split at h
  · exact Except.noConfusion h
  next hlt =>
    obtain rfl := Except.ok.inj h
    exact ⟨by simp, by omega⟩

/-- Any successful run of the main loop returns at most `MAX_TOKENS`
tokens: the final `EndOfFile` push enforces the quota. -/
theorem lexLoop_ok_length (src : Str) : ∀ fuel idx line col acc ts,
    lexLoop src fuel idx line col acc = .ok ts →
    ts.length ≤ MAX_TOKENS := by
  intro fuel
  induction fuel with
  | zero =>
    intro idx line col acc ts h
    rw [lexLoop] at h
    split at h
    · exact Except.noConfusion h
    · unfold finishLex at h
      split at h
      · exact Except.noConfusion h
      next acc' hpush =>
        obtain rfl := Except.ok.inj h
        obtain ⟨h1, h2⟩ := pushTok_ok_length _ _ _ _ _ _ hpush
        simp only [List.length_reverse]
        omega
  | succ f ih =>
    intro idx line col acc ts h
    rw [lexLoop] at h
    split at h
    · split at h
      · exact Except.noConfusion h
      · exact ih _ _ _ _ _ h
      · split at h
        · exact Except.noConfusion h
        · exact ih _ _ _ _ _ h
    · unfold finishLex at h
      split at h
      · exact Except.noConfusion h
      next acc' hpush =>
        obtain rfl := Except.ok.inj h
        obtain ⟨h1, h2⟩ := pushTok_ok_length _ _ _ _ _ _ hpush
        simp only [List.length_reverse]
        omega

/-- The quota error produced on an input of 40000 newlines. -/
def quotaErr : RubyDslError :=
  ⟨str "token quota exceeded", 40000, 40001, 1, ['a'], none⟩

/-- One tokenizer iteration on a newline. -/
theorem lexStep_newline (src : Str) (idx line col : Nat) (ph : Str)
    (h : codeAt src idx = LINE_FEED) :
    lexStep src idx line col ph =
      .ok (.emit ⟨.NewLine, slice src idx (idx + 1), idx, idx + 1, line, col⟩
        idx line col (idx + 1) (line + 1) 1) := by
  rw [lexStep, h]
  rw [if_neg (by decide), if_pos (by decide)]
  rfl

/-- `source.slice(i, i+1)` is the singleton at index `i`. -/
theorem slice_one (s : Str) (idx : Nat) (h : idx < s.length) :
    slice s idx (idx + 1) = [s[idx]] := by
  unfold slice
  rw [List.drop_eq_getElem_cons h]
  have h1 : idx + 1 - idx = 1 := by omega
  rw [h1]
  rfl

/-- Terminal case of the quota run: with 40000 tokens already pushed at
the end of the input, the `EndOfFile` push fails with the quota error. -/
theorem lexLoop_at_quota (fuel : Nat) (acc : List Token)
    (hlen : acc.length = 40000) (hph : previousHexOf acc = ['a']) :
    lexLoop (List.replicate 40000 (Char.ofNat 10)) fuel 40000 40001 1 acc =
      .error quotaErr := by
  have hnotlt : ¬(40000 < (List.replicate 40000 (Char.ofNat 10)).length) := by
    rw [List.length_replicate]
    omega
  have hfin : finishLex (List.replicate 40000 (Char.ofNat 10))
      40000 40001 1 acc = .error quotaErr := by
    unfold finishLex pushTok
    rw [if_pos (by rw [hlen]; decide), hph]
    rfl
  cases fuel with
  | zero => rw [lexLoop, if_neg hnotlt]; exact hfin
  | succ f => rw [lexLoop, if_neg hnotlt]; exact hfin

/-- On the all-newlines input, the main loop pushes one `NewLine` token
per character and then fails with the quota error at the final push. -/
theorem lexLoop_newlines : ∀ fuel idx acc,
    40000 - idx ≤ fuel → idx ≤ 40000 → acc.length = idx →
    (idx = 0 ∨ previousHexOf acc = ['a']) →
    lexLoop (List.replicate 40000 (Char.ofNat 10)) fuel idx (idx + 1) 1 acc =
      .error quotaErr := by
  intro fuel
  induction fuel with
  | zero =>
    intro idx acc hf hle hlen hph
    obtain rfl : idx = 40000 := by omega
    rcases hph with h0 | hph
    · exact absurd h0 (by omega)
    · exact lexLoop_at_quota 0 acc hlen hph
  | succ f ih =>
    intro idx acc hf hle hlen hph
    by_cases hlt : idx < 40000
    · have hlen' : idx < (List.replicate 40000 (Char.ofNat 10)).length := by
        rw [List.length_replicate]
        exact hlt
      have hcode : codeAt (List.replicate 40000 (Char.ofNat 10)) idx =
          LINE_FEED := by
        unfold codeAt
        rw [List.get?_eq_getElem?, List.getElem?_replicate_of_lt hlt]
        rfl
      have htext : slice (List.replicate 40000 (Char.ofNat 10)) idx
          (idx + 1) = [Char.ofNat 10] := by
        rw [slice_one _ _ hlen']
        rw [List.getElem_replicate]
      rw [lexLoop, if_pos hlen']
      rw [lexStep_newline _ _ _ _ _ hcode]
      have hpush : pushTok acc idx (idx + 1) 1
          ⟨.NewLine, slice (List.replicate 40000 (Char.ofNat 10)) idx
            (idx + 1), idx, idx + 1, idx + 1, 1⟩ =
          .ok (⟨.NewLine, slice (List.replicate 40000 (Char.ofNat 10)) idx
            (idx + 1), idx, idx + 1, idx + 1, 1⟩ :: acc) := by
        unfold pushTok
        rw [if_neg (by rw [hlen]; simp only [MAX_TOKENS]; omega)]
      simp only [hpush]
      have hph' : previousHexOf (⟨.NewLine,
          slice (List.replicate 40000 (Char.ofNat 10)) idx (idx + 1),
          idx, idx + 1, idx + 1, 1⟩ :: acc) = ['a'] := by
        simp only [previousHexOf, htext, hexOfText]
        decide
      exact ih (idx + 1) _ (by omega) (by omega)
        (by rw [List.length_cons, hlen]) (Or.inr hph')
    · obtain rfl : idx = 40000 := by omega
      rcases hph with h0 | hph
      · exact absurd h0 (by omega)
      · exact lexLoop_at_quota (f + 1) acc hlen hph

/-- Claim C7: `tokenize` never returns more than 40000 tokens, and an
input whose lexing would need more than 40000 tokens (counting the final
`EndOfFile`) fails with the `token quota exceeded` error — exhibited on
the input of 40000 newline characters, whose 40001st push is the one that
throws. -/
theorem c7_token_quota :
    (∀ src ts, tokenize src = .ok ts → ts.length ≤ MAX_TOKENS) ∧
    tokenize (List.replicate 40000 (Char.ofNat 10)) = .error quotaErr := by
  constructor
  · intro src ts h
    unfold tokenize at h
    exact lexLoop_ok_length src _ _ _ _ _ _ h
  · unfold tokenize
    rw [List.length_replicate]
    exact lexLoop_newlines (40000 * MAX_ITERATIONS) 0 []
      (by simp only [MAX_ITERATIONS]; omega) (by omega) rfl (Or.inl rfl)

def c7Toks : List Token :=
  [⟨.Identifier, str "x", 0, 1, 1, 1⟩, ⟨.EndOfFile, [], 1, 1, 1, 2⟩]

/-- Witness for C7 on a concrete input. -/
theorem c7_token_quota_witness : c7Toks.length ≤ MAX_TOKENS :=
  c7_token_quota.1 (str "x") c7Toks (by rfl)

/-! Claims C9 and C10: scanner and step lemmas. -/

/-- A successful symbol-body scan never moves the index backwards. -/
theorem scanSymBody_ge (quoteCode : Nat) (op : Opener) (ph : Str) :
    ∀ rem cnt p l c i2 l2 c2,
      scanSymBody quoteCode op ph rem cnt p l c = .ok (i2, l2, c2) →
      p ≤ i2 := by
  intro rem
  induction rem with
  | nil =>
    intro cnt p l c i2 l2 c2 h
    rw [scanSymBody] at h
    exact Except.noConfusion h
  | cons ch rest ih =>
    intro cnt p l c i2 l2 c2 h
    rw [scanSymBody] at h
    split at h
    · simp only [Except.ok.injEq, Prod.mk.injEq] at h
      omega
    · split at h
      · exact Except.noConfusion h
      · split at h
        · have := ih _ _ _ _ _ _ _ h
          omega
        · have := ih _ _ _ _ _ _ _ h
          omega

/-- A failed symbol-body scan carries one of the two symbol messages. -/
theorem scanSymBody_error_msg (quoteCode : Nat) (op : Opener) (ph : Str) :
    ∀ rem cnt p l c e,
      scanSymBody quoteCode op ph rem cnt p l c = .error e →
      e.message = str "unterminated symbol" ∨
        e.message = str "symbol literal too long" := by
  intro rem
  induction rem with
  | nil =>
    intro cnt p l c e h
    rw [scanSymBody] at h
    obtain rfl := Except.error.inj h
    exact Or.inl rfl
  | cons ch rest ih =>
    intro cnt p l c e h
    rw [scanSymBody] at h
    split at h
    · exact Except.noConfusion h
    · split at h
      · obtain rfl := Except.error.inj h
        exact Or.inr rfl
      · split at h
        · exact ih _ _ _ _ _ h
        · exact ih _ _ _ _ _ h

/-- A successful string/percent-body scan never moves the index
backwards (induction on a length bound, since a backslash consumes two
characters at once). -/
theorem scanBody_ge (closeCode : Nat) (m1 m2 : Str) (op : Opener)
    (ph : Str) : ∀ n rem cnt p l c i2 l2 c2, rem.length ≤ n →
      scanBody closeCode m1 m2 op ph rem cnt p l c = .ok (i2, l2, c2) →
      p ≤ i2 := by
  intro n
  induction n with
  | zero =>
    intro rem cnt p l c i2 l2 c2 hn h
    obtain rfl : rem = [] := List.length_eq_zero.mp (Nat.le_zero.mp hn)
    rw [scanBody.eq_def] at h
    exact Except.noConfusion h
  | succ n ih =>
    intro rem cnt p l c i2 l2 c2 hn h
    cases rem with
    | nil =>
      rw [scanBody.eq_def] at h
      exact Except.noConfusion h
    | cons ch rest =>
      rw [scanBody.eq_def] at h
      simp only [] at h
      split at h
      · simp only [Except.ok.injEq, Prod.mk.injEq] at h
        omega
      · split at h
        · exact Except.noConfusion h
        · split at h
          · split at h
            · exact Except.noConfusion h
            next ch2 rest2 =>
              have hlen : rest2.length ≤ n := by
                simp only [List.length_cons] at hn
                omega
              split at h
              · have := ih _ _ _ _ _ _ _ _ hlen h
                omega
              · have := ih _ _ _ _ _ _ _ _ hlen h
                omega
          · have hlen : rest.length ≤ n := by
              simp only [List.length_cons] at hn
              omega
            split at h
            · have := ih _ _ _ _ _ _ _ _ hlen h
              omega
            · have := ih _ _ _ _ _ _ _ _ hlen h
              omega

/-- A failed string/percent-body scan carries one of the two messages it
was given. -/
theorem scanBody_error_msg (closeCode : Nat) (m1 m2 : Str) (op : Opener)
    (ph : Str) : ∀ n rem cnt p l c e, rem.length ≤ n →
      scanBody closeCode m1 m2 op ph rem cnt p l c = .error e →
      e.message = m1 ∨ e.message = m2 := by
  intro n
  induction n with
  | zero =>
    intro rem cnt p l c e hn h
    obtain rfl : rem = [] := List.length_eq_zero.mp (Nat.le_zero.mp hn)
    rw [scanBody.eq_def] at h
    obtain rfl := Except.error.inj h
    exact Or.inr rfl
  | succ n ih =>
    intro rem cnt p l c e hn h
    cases rem with
    | nil =>
      rw [scanBody.eq_def] at h
      obtain rfl := Except.error.inj h
      exact Or.inr rfl
    | cons ch rest =>
      rw [scanBody.eq_def] at h
      simp only [] at h
      split at h
      · exact Except.noConfusion h
      · split at h
        · obtain rfl := Except.error.inj h
          exact Or.inl rfl
        · split at h
          · split at h
            · obtain rfl := Except.error.inj h
              exact Or.inr rfl
            next ch2 rest2 =>
              have hlen : rest2.length ≤ n := by
                simp only [List.length_cons] at hn
                omega
              split at h
              · exact ih _ _ _ _ _ _ hlen h
              · exact ih _ _ _ _ _ _ hlen h
          · have hlen : rest.length ≤ n := by
              simp only [List.length_cons] at hn
              omega
            split at h
            · exact ih _ _ _ _ _ _ hlen h
            · exact ih _ _ _ _ _ _ hlen h

/-- `countWhile` of a suffix whose head satisfies the predicate is at
least one. -/
theorem countWhile_drop_pos (p : Char → Bool) (src : Str) (idx : Nat)
    (hlt : idx < src.length) (hp : p src[idx] = true) :
    1 ≤ countWhile p (src.drop idx) := by
  rw [List.drop_eq_getElem_cons hlt]
  rw [countWhile, if_pos hp]
  omega

/-- A non-sentinel `charCodeAt` comes from a real character. -/
theorem codeAt_spec (src : Str) (idx : Nat) (h : codeAt src idx ≠ NO_CHAR) :
    ∃ hlt : idx < src.length, src[idx].toNat = codeAt src idx := by
  unfold codeAt at *
  rw [List.get?_eq_getElem?] at *
  cases hget : src[idx]? with
  | none =>
    rw [hget] at h
    exact absurd rfl h
  | some a =>
    obtain ⟨hlt, hval⟩ := List.getElem?_eq_some_iff.mp hget
    refine ⟨hlt, ?_⟩
    rw [hval]

theorem identStart_imp_cont (c : Nat) :
    isIdentStartCode c = true → isIdentContCode c = true := by
  unfold isIdentStartCode isIdentContCode
  simp only [decide_eq_true_eq]
  omega

/-- If the head character at `idx` exists and satisfies `p`, the counted
run from `idx` is non-empty. -/
theorem countWhile_code_pos (p : Char → Bool) (src : Str) (idx : Nat)
    (hne : codeAt src idx ≠ NO_CHAR)
    (hp : ∀ ch : Char, ch.toNat = codeAt src idx → p ch = true) :
    1 ≤ countWhile p (src.drop idx) := by
  obtain ⟨hlt, hval⟩ := codeAt_spec src idx hne
  exact countWhile_drop_pos p src idx hlt (hp _ hval)

/-- Soundness of one tokenizer iteration: the resume index strictly
increases (claim C10), and an emitted token starts at the iteration index,
has `start ≤ end`, and ends no later than the resume index (claim C9). -/
theorem lexStep_wf (src : Str) (idx line col : Nat) (ph : Str)
    (s : LexStep) (h : lexStep src idx line col ph = .ok s) :
    idx < s.nextIdx ∧
    ∀ t pi pl pc i l c, s = .emit t pi pl pc i l c →
      t.start = idx ∧ t.start ≤ t.endPos ∧ t.endPos ≤ i := by
  rw [lexStep] at h
  by_cases c1 : codeAt src idx = SPACE_CHARACTER ∨
      codeAt src idx = CHARACTER_TAB
  · rw [if_pos c1] at h
    obtain rfl := Except.ok.inj h
    refine ⟨by simp only [skipOneStep, LexStep.nextIdx]; omega, ?_⟩
    rintro t pi pl pc i l c heq
    simp only [skipOneStep] at heq
    exact LexStep.noConfusion heq
  rw [if_neg c1] at h
  by_cases c2 : codeAt src idx = LINE_FEED
  · rw [if_pos c2] at h
    obtain rfl := Except.ok.inj h
    refine ⟨by simp only [nlStep, LexStep.nextIdx]; omega, ?_⟩
    rintro t pi pl pc i l c heq
    simp only [nlStep] at heq
    cases heq
    refine ⟨rfl, ?_, ?_⟩ <;> simp only [] <;> omega
  rw [if_neg c2] at h
  by_cases c3 : codeAt src idx = COMMA_CHARACTER ∨
      codeAt src idx = LEFT_PARENTHESIS ∨
      codeAt src idx = RIGHT_PARENTHESIS ∨
      codeAt src idx = LEFT_BRACKET ∨ codeAt src idx = RIGHT_BRACKET ∨
      codeAt src idx = DOT_CHARACTER ∨ codeAt src idx = EQUALS_CHARACTER
  · rw [if_pos c3] at h
    obtain rfl := Except.ok.inj h
    refine ⟨by simp only [singleCharStep, LexStep.nextIdx]; omega, ?_⟩
    rintro t pi pl pc i l c heq
    simp only [singleCharStep] at heq
    cases heq
    refine ⟨rfl, ?_, ?_⟩ <;> simp only [] <;> omega
  rw [if_neg c3] at h
  by_cases c4 : codeAt src idx = COLON_CHARACTER
  · rw [if_pos c4] at h
    by_cases c4a : codeAt src (idx + 1) = COLON_CHARACTER ∨
        (if idx > 0 then codeAt src (idx - 1) else 0) = COLON_CHARACTER
    · rw [if_pos c4a] at h
      obtain rfl := Except.ok.inj h
      refine ⟨by simp only [colonTokStep, LexStep.nextIdx]; omega, ?_⟩
      rintro t pi pl pc i l c heq
      simp only [colonTokStep] at heq
      cases heq
      refine ⟨rfl, ?_, ?_⟩ <;> simp only [] <;> omega
    rw [if_neg c4a] at h
    by_cases c4b : codeAt src (idx + 1) = SINGLE_QUOTE_CHARACTER ∨
        codeAt src (idx + 1) = DOUBLE_QUOTE_CHARACTER
    · rw [if_pos c4b] at h
      cases hscan : scanSymBody (codeAt src (idx + 1)) ⟨line, col + 1⟩ ph
          (src.drop (idx + 2)) 0 (idx + 2) line (col + 2) with
      | error e =>
        rw [hscan] at h
        exact Except.noConfusion h
      | ok r =>
        obtain ⟨i2, l2, c2⟩ := r
        rw [hscan] at h
        replace h : Except.ok (quotedSymStep src idx i2 l2 c2) =
          Except.ok s := h
        obtain rfl := Except.ok.inj h
        have hge := scanSymBody_ge _ _ _ _ _ _ _ _ _ _ _ hscan
        refine ⟨by simp only [quotedSymStep, LexStep.nextIdx]; omega, ?_⟩
        rintro t pi pl pc i l c heq
        simp only [quotedSymStep] at heq
        cases heq
        refine ⟨rfl, ?_, ?_⟩ <;> simp only [] <;> omega
    rw [if_neg c4b] at h
    by_cases c4c : isSymContCode (codeAt src (idx + 1)) = true
    · rw [if_pos c4c] at h
      obtain rfl := Except.ok.inj h
      refine ⟨by simp only [symWordStep, LexStep.nextIdx]; omega, ?_⟩
      rintro t pi pl pc i l c heq
      simp only [symWordStep] at heq
      cases heq
      refine ⟨rfl, ?_, ?_⟩ <;> simp only [] <;> omega
    · rw [if_neg c4c] at h
      obtain rfl := Except.ok.inj h
      refine ⟨by simp only [colonTokStep, LexStep.nextIdx]; omega, ?_⟩
      rintro t pi pl pc i l c heq
      simp only [colonTokStep] at heq
      cases heq
      refine ⟨rfl, ?_, ?_⟩ <;> simp only [] <;> omega
  rw [if_neg c4] at h
  by_cases c5 : codeAt src idx = HASH_CHARACTER
  · rw [if_pos c5] at h
    obtain rfl := Except.ok.inj h
    have hpos := countWhile_code_pos
      (fun c => decide (c.toNat ≠ LINE_FEED)) src idx
      (by rw [c5]; decide)
      (fun ch hch => by
        show decide (ch.toNat ≠ LINE_FEED) = true
        rw [hch, c5]; decide)
    refine ⟨by simp only [commentStep, LexStep.nextIdx]; omega, ?_⟩
    rintro t pi pl pc i l c heq
    simp only [commentStep] at heq
    exact LexStep.noConfusion heq
  rw [if_neg c5] at h
  by_cases c6 : codeAt src idx = PIPE_CHARACTER
  · rw [if_pos c6] at h
    obtain rfl := Except.ok.inj h
    refine ⟨by simp only [pipeStep, LexStep.nextIdx]; omega, ?_⟩
    rintro t pi pl pc i l c heq
    simp only [pipeStep] at heq
    cases heq
    refine ⟨rfl, ?_, ?_⟩ <;> simp only [] <;> omega
  rw [if_neg c6] at h
  by_cases c7 : codeAt src idx = SINGLE_QUOTE_CHARACTER ∨
      codeAt src idx = DOUBLE_QUOTE_CHARACTER
  · rw [if_pos c7] at h
    cases hscan : scanBody (codeAt src idx) (str "string literal too long")
        (str "unterminated string") ⟨line, col⟩ ph (src.drop (idx + 1)) 0
        (idx + 1) line (col + 1) with
    | error e =>
      rw [hscan] at h
      exact Except.noConfusion h
    | ok r =>
      obtain ⟨i2, l2, c2⟩ := r
      rw [hscan] at h
      replace h : Except.ok (stringStep src idx i2 l2 c2) =
        Except.ok s := h
      obtain rfl := Except.ok.inj h
      have hge := scanBody_ge _ _ _ _ _ _ _ _ _ _ _ _ _ _ (le_refl _) hscan
      refine ⟨by simp only [stringStep, LexStep.nextIdx]; omega, ?_⟩
      rintro t pi pl pc i l c heq
      simp only [stringStep] at heq
      cases heq
      refine ⟨rfl, ?_, ?_⟩ <;> simp only [] <;> omega
  rw [if_neg c7] at h
  by_cases c8 : codeAt src idx = PERCENT_CHARACTER ∧
      (codeAt src (idx + 1) = 'q'.toNat ∨ codeAt src (idx + 1) = 'w'.toNat)
  · rw [if_pos c8] at h
    cases hscan : scanBody (closingDelimiter (codeAt src (idx + 2)))
        (str "%q/%w literal too long") (str "unterminated %q/%w literal")
        ⟨line, col⟩ ph (src.drop (idx + 3)) 0 (idx + 3) line (col + 3) with
    | error e =>
      rw [hscan] at h
      exact Except.noConfusion h
    | ok r =>
      obtain ⟨i2, l2, c2⟩ := r
      rw [hscan] at h
      replace h : Except.ok (percentStep src idx i2 l2 c2) =
        Except.ok s := h
      obtain rfl := Except.ok.inj h
      have hge := scanBody_ge _ _ _ _ _ _ _ _ _ _ _ _ _ _ (le_refl _) hscan
      refine ⟨by simp only [percentStep, LexStep.nextIdx]; omega, ?_⟩
      rintro t pi pl pc i l c heq
      simp only [percentStep] at heq
      cases heq
      refine ⟨rfl, ?_, ?_⟩ <;> simp only [] <;> omega
  rw [if_neg c8] at h
  by_cases c9 : codeAt src idx = LEFT_CURLY_BRACE ∨
      codeAt src idx = RIGHT_CURLY_BRACE ∨
      codeAt src idx = LESS_THAN_CHARACTER ∨
      codeAt src idx = GREATER_THAN_CHARACTER ∨
      codeAt src idx = MINUS_CHARACTER ∨ codeAt src idx = PLUS_CHARACTER ∨
      codeAt src idx = AMPERSAND_CHARACTER ∨
      codeAt src idx = ASTERISK_CHARACTER ∨
      codeAt src idx = FORWARD_SLASH_CHARACTER ∨
      codeAt src idx = SEMICOLON_CHARACTER
  · rw [if_pos c9] at h
    obtain rfl := Except.ok.inj h
    refine ⟨by simp only [skipOneStep, LexStep.nextIdx]; omega, ?_⟩
    rintro t pi pl pc i l c heq
    simp only [skipOneStep] at heq
    exact LexStep.noConfusion heq
  rw [if_neg c9] at h
  by_cases c10 : isIdentStartCode (codeAt src idx) = true
  · rw [if_pos c10] at h
    obtain rfl := Except.ok.inj h
    have hpos := countWhile_code_pos
      (fun c => isIdentContCode c.toNat) src idx
      (by intro hcc; rw [hcc] at c10; exact absurd c10 (by decide))
      (fun ch hch => by
        show isIdentContCode ch.toNat = true
        rw [hch]; exact identStart_imp_cont _ c10)
    refine ⟨by simp only [identStep, LexStep.nextIdx]; omega, ?_⟩
    rintro t pi pl pc i l c heq
    simp only [identStep] at heq
    cases heq
    refine ⟨rfl, ?_, ?_⟩ <;> simp only [] <;> omega
  rw [if_neg c10] at h
  by_cases c11 : isDigitCode (codeAt src idx) = true
  · rw [if_pos c11] at h
    obtain rfl := Except.ok.inj h
    have hpos := countWhile_code_pos
      (fun c => isDigitCode c.toNat) src idx
      (by intro hcc; rw [hcc] at c11; exact absurd c11 (by decide))
      (fun ch hch => by
        show isDigitCode ch.toNat = true
        rw [hch]; exact c11)
    refine ⟨by simp only [intStep, LexStep.nextIdx]; omega, ?_⟩
    rintro t pi pl pc i l c heq
    simp only [intStep] at heq
    cases heq
    refine ⟨rfl, ?_, ?_⟩ <;> simp only [] <;> omega
  · rw [if_neg c11] at h
    exact Except.noConfusion h

/-- Whether a tokenizer result is the `runaway lexer` error. -/
def isRunawayResult : Except RubyDslError (List Token) → Bool
  | .error e => decide (e.message = str "runaway lexer")
  | .ok _ => false

/-- No error produced inside one iteration of the main loop carries the
`runaway lexer` message (that message only arises from the iteration
budget itself). -/
theorem lexStep_error_msg (src : Str) (idx line col : Nat) (ph : Str)
    (e : RubyDslError) (h : lexStep src idx line col ph = .error e) :
    e.message ≠ str "runaway lexer" := by
  rw [lexStep] at h
  by_cases c1 : codeAt src idx = SPACE_CHARACTER ∨
      codeAt src idx = CHARACTER_TAB
  · rw [if_pos c1] at h
    exact Except.noConfusion h
  rw [if_neg c1] at h
  by_cases c2 : codeAt src idx = LINE_FEED
  · rw [if_pos c2] at h
    exact Except.noConfusion h
  rw [if_neg c2] at h
  by_cases c3 : codeAt src idx = COMMA_CHARACTER ∨
      codeAt src idx = LEFT_PARENTHESIS ∨
      codeAt src idx = RIGHT_PARENTHESIS ∨
      codeAt src idx = LEFT_BRACKET ∨ codeAt src idx = RIGHT_BRACKET ∨
      codeAt src idx = DOT_CHARACTER ∨ codeAt src idx = EQUALS_CHARACTER
  · rw [if_pos c3] at h
    exact Except.noConfusion h
  rw [if_neg c3] at h
  by_cases c4 : codeAt src idx = COLON_CHARACTER
  · rw [if_pos c4] at h
    by_cases c4a : codeAt src (idx + 1) = COLON_CHARACTER ∨
        (if idx > 0 then codeAt src (idx - 1) else 0) = COLON_CHARACTER
    · rw [if_pos c4a] at h
      exact Except.noConfusion h
    rw [if_neg c4a] at h
    by_cases c4b : codeAt src (idx + 1) = SINGLE_QUOTE_CHARACTER ∨
        codeAt src (idx + 1) = DOUBLE_QUOTE_CHARACTER
    · rw [if_pos c4b] at h
      cases hscan : scanSymBody (codeAt src (idx + 1)) ⟨line, col + 1⟩ ph
          (src.drop (idx + 2)) 0 (idx + 2) line (col + 2) with
      | error e2 =>
        rw [hscan] at h
        replace h : Except.error e2 = Except.error e := h
        obtain rfl := Except.error.inj h
        rcases scanSymBody_error_msg _ _ _ _ _ _ _ _ _ hscan with hm | hm <;>
          rw [hm] <;> decide
      | ok r =>
        obtain ⟨i2, l2, c2⟩ := r
        rw [hscan] at h
        exact Except.noConfusion h
    rw [if_neg c4b] at h
    by_cases c4c : isSymContCode (codeAt src (idx + 1)) = true
    · rw [if_pos c4c] at h
      exact Except.noConfusion h
    · rw [if_neg c4c] at h
      exact Except.noConfusion h
  rw [if_neg c4] at h
  by_cases c5 : codeAt src idx = HASH_CHARACTER
  · rw [if_pos c5] at h
    exact Except.noConfusion h
  rw [if_neg c5] at h
  by_cases c6 : codeAt src idx = PIPE_CHARACTER
  · rw [if_pos c6] at h
    exact Except.noConfusion h
  rw [if_neg c6] at h
  by_cases c7 : codeAt src idx = SINGLE_QUOTE_CHARACTER ∨
      codeAt src idx = DOUBLE_QUOTE_CHARACTER
  · rw [if_pos c7] at h
    cases hscan : scanBody (codeAt src idx) (str "string literal too long")
        (str "unterminated string") ⟨line, col⟩ ph (src.drop (idx + 1)) 0
        (idx + 1) line (col + 1) with
    | error e2 =>
      rw [hscan] at h
      replace h : Except.error e2 = Except.error e := h
      obtain rfl := Except.error.inj h
      rcases scanBody_error_msg _ _ _ _ _ _ _ _ _ _ _ _ (le_refl _) hscan
        with hm | hm <;> rw [hm] <;> decide
    | ok r =>
      obtain ⟨i2, l2, c2⟩ := r
      rw [hscan] at h
      exact Except.noConfusion h
  rw [if_neg c7] at h
  by_cases c8 : codeAt src idx = PERCENT_CHARACTER ∧
      (codeAt src (idx + 1) = 'q'.toNat ∨ codeAt src (idx + 1) = 'w'.toNat)
  · rw [if_pos c8] at h
    cases hscan : scanBody (closingDelimiter (codeAt src (idx + 2)))
        (str "%q/%w literal too long") (str "unterminated %q/%w literal")
        ⟨line, col⟩ ph (src.drop (idx + 3)) 0 (idx + 3) line (col + 3) with
    | error e2 =>
      rw [hscan] at h
      replace h : Except.error e2 = Except.error e := h
      obtain rfl := Except.error.inj h
      rcases scanBody_error_msg _ _ _ _ _ _ _ _ _ _ _ _ (le_refl _) hscan
        with hm | hm <;> rw [hm] <;> decide
    | ok r =>
      obtain ⟨i2, l2, c2⟩ := r
      rw [hscan] at h
      exact Except.noConfusion h
  rw [if_neg c8] at h
  by_cases c9 : codeAt src idx = LEFT_CURLY_BRACE ∨
      codeAt src idx = RIGHT_CURLY_BRACE ∨
      codeAt src idx = LESS_THAN_CHARACTER ∨
      codeAt src idx = GREATER_THAN_CHARACTER ∨
      codeAt src idx = MINUS_CHARACTER ∨ codeAt src idx = PLUS_CHARACTER ∨
      codeAt src idx = AMPERSAND_CHARACTER ∨
      codeAt src idx = ASTERISK_CHARACTER ∨
      codeAt src idx = FORWARD_SLASH_CHARACTER ∨
      codeAt src idx = SEMICOLON_CHARACTER
  · rw [if_pos c9] at h
    exact Except.noConfusion h
  rw [if_neg c9] at h
  by_cases c10 : isIdentStartCode (codeAt src idx) = true
  · rw [if_pos c10] at h
    exact Except.noConfusion h
  rw [if_neg c10] at h
  by_cases c11 : isDigitCode (codeAt src idx) = true
  · rw [if_pos c11] at h
    exact Except.noConfusion h
  · rw [if_neg c11] at h
    obtain rfl := Except.error.inj h
    show str "unknown character" ≠ str "runaway lexer"
    decide

/-- `finishLex` never produces the `runaway lexer` error. -/
theorem finishLex_not_runaway (src : Str) (idx line col : Nat)
    (acc : List Token) :
    isRunawayResult (finishLex src idx line col acc) = false := by
  unfold finishLex
  cases hp : pushTok acc idx line col ⟨.EndOfFile, slice src idx idx,
      idx, idx, line, col⟩ with
  | error e =>
    unfold pushTok at hp
    split at hp
    · obtain rfl := Except.error.inj hp
      rfl
    · exact Except.noConfusion hp
  | ok acc2 => rfl

/-- With at least `src.length - idx` iterations of budget left, the main
loop never reports `runaway lexer` (each iteration consumes at least one
character). -/
theorem lexLoop_not_runaway (src : Str) : ∀ fuel idx line col acc,
    src.length - idx ≤ fuel →
    isRunawayResult (lexLoop src fuel idx line col acc) = false := by
  intro fuel
  induction fuel with
  | zero =>
    intro idx line col acc hf
    rw [lexLoop]
    rw [if_neg (by omega)]
    exact finishLex_not_runaway src idx line col acc
  | succ n ih =>
    intro idx line col acc hf
    rw [lexLoop]
    by_cases hidx : idx < src.length
    · rw [if_pos hidx]
      cases hs : lexStep src idx line col (previousHexOf acc) with
      | error e =>
        have hm := lexStep_error_msg src idx line col (previousHexOf acc) e hs
        show isRunawayResult (.error e) = false
        unfold isRunawayResult
        exact decide_eq_false hm
      | ok s =>
        have hwf := (lexStep_wf src idx line col (previousHexOf acc) s hs).1
        cases s with
        | skip i l c =>
          simp only [LexStep.nextIdx] at hwf
          exact ih i l c acc (by omega)
        | emit t pi pl pc i l c =>
          simp only [LexStep.nextIdx] at hwf
          show isRunawayResult (match pushTok acc pi pl pc t with
            | Except.error e => Except.error e
            | Except.ok acc => lexLoop src n i l c acc) = false
          cases hp : pushTok acc pi pl pc t with
          | error e =>
            show isRunawayResult (Except.error e) = false
            unfold pushTok at hp
            split at hp
            · obtain rfl := Except.error.inj hp
              rfl
            · exact Except.noConfusion hp
          | ok acc2 =>
            exact ih i l c acc2 (by omega)
    · rw [if_neg hidx]
      exact finishLex_not_runaway src idx line col acc

/-- C10: every successful iteration of the tokenizer main loop advances
the index by at least one character, and consequently the iteration
budget of `MAX_ITERATIONS × length` is never exhausted: `tokenize` never
returns the `runaway lexer` error, on any input. -/
theorem c10_lexer_progress :
    (∀ src idx line col ph s, lexStep src idx line col ph = .ok s →
      idx < s.nextIdx) ∧
    ∀ src, isRunawayResult (tokenize src) = false := by
  constructor
  · intro src idx line col ph s h
    exact (lexStep_wf src idx line col ph s h).1
  · intro src
    unfold tokenize
    exact lexLoop_not_runaway src (src.length * MAX_ITERATIONS) 0 1 1 []
      (by unfold MAX_ITERATIONS; omega)

/-- Witness for C10 at a concrete input: on `"gem"` the first iteration
advances the index from 0 to 3, and the tokenizer does not report
`runaway lexer`. -/
theorem c10_lexer_progress_witness :
    0 < (LexStep.emit ⟨.Identifier, str "gem", 0, 3, 1, 1⟩
      3 1 4 3 1 4).nextIdx ∧
    isRunawayResult (tokenize (str "gem")) = false :=
  ⟨c10_lexer_progress.1 (str "gem") 0 1 1 []
    (LexStep.emit ⟨.Identifier, str "gem", 0, 3, 1, 1⟩ 3 1 4 3 1 4) rfl,
   c10_lexer_progress.2 (str "gem")⟩

/-- Pushing the `EndOfFile` token preserves the position invariants: if
every accumulated token ends at or before the current index and starts
at or before its end, the reversed final list is sorted by start offset
and each token satisfies `start ≤ end`. -/
theorem finishLex_positions (src : Str) (idx line col : Nat)
    (acc ts : List Token)
    (hinv : ∀ t ∈ acc, t.start ≤ t.endPos ∧ t.endPos ≤ idx)
    (hpw : acc.Pairwise (fun a b => b.start ≤ a.start))
    (h : finishLex src idx line col acc = .ok ts) :
    List.Pairwise (fun a b => a.start ≤ b.start) ts ∧
    ∀ t ∈ ts, t.start ≤ t.endPos := by
  unfold finishLex at h
  cases hp : pushTok acc idx line col ⟨.EndOfFile, slice src idx idx,
      idx, idx, line, col⟩ with
  | error e =>
    rw [hp] at h
    exact Except.noConfusion h
  | ok acc2 =>
    rw [hp] at h
    obtain rfl := Except.ok.inj h
    unfold pushTok at hp
    split at hp
    · exact Except.noConfusion hp
    · obtain rfl := Except.ok.inj hp
      constructor
      · rw [List.pairwise_reverse]
        refine List.Pairwise.cons ?_ hpw
        intro b hb
        exact le_trans (hinv b hb).1 (hinv b hb).2
      · intro t ht
        rw [List.mem_reverse] at ht
        rcases List.mem_cons.mp ht with rfl | hmem
        · exact Nat.le_refl idx
        · exact (hinv t hmem).1

/-- Position invariant of the tokenizer main loop: tokens are emitted in
non-decreasing start order and each spans a non-negative range. -/
theorem lexLoop_positions (src : Str) : ∀ fuel idx line col acc ts,
    (∀ t ∈ acc, t.start ≤ t.endPos ∧ t.endPos ≤ idx) →
    acc.Pairwise (fun a b => b.start ≤ a.start) →
    lexLoop src fuel idx line col acc = .ok ts →
    List.Pairwise (fun a b => a.start ≤ b.start) ts ∧
    ∀ t ∈ ts, t.start ≤ t.endPos := by
  intro fuel
  induction fuel with
  | zero =>
    intro idx line col acc ts hinv hpw h
    rw [lexLoop] at h
    split at h
    · exact Except.noConfusion h
    · exact finishLex_positions src idx line col acc ts hinv hpw h
  | succ n ih =>
    intro idx line col acc ts hinv hpw h
    rw [lexLoop] at h
    by_cases hidx : idx < src.length
    · rw [if_pos hidx] at h
      cases hs : lexStep src idx line col (previousHexOf acc) with
      | error e =>
        rw [hs] at h
        exact Except.noConfusion h
      | ok s =>
        rw [hs] at h
        have hwf := lexStep_wf src idx line col (previousHexOf acc) s hs
        cases s with
        | skip i l c =>
          simp only [LexStep.nextIdx] at hwf
          replace h : lexLoop src n i l c acc = .ok ts := h
          refine ih i l c acc ts ?_ hpw h
          intro t ht
          have := hinv t ht
          omega
        | emit t pi pl pc i l c =>
          simp only [LexStep.nextIdx] at hwf
          obtain ⟨hstart, hse, hei⟩ := hwf.2 t pi pl pc i l c rfl
          replace h : (match pushTok acc pi pl pc t with
            | Except.error e => Except.error e
            | Except.ok acc => lexLoop src n i l c acc) = .ok ts := h
          cases hp : pushTok acc pi pl pc t with
          | error e =>
            rw [hp] at h
            exact Except.noConfusion h
          | ok acc2 =>
            rw [hp] at h
            unfold pushTok at hp
            split at hp
            · exact Except.noConfusion hp
            · obtain rfl := Except.ok.inj hp
              refine ih i l c (t :: acc) ts ?_ ?_ h
              · intro u hu
                rcases List.mem_cons.mp hu with rfl | hmem
                · exact ⟨hse, hei⟩
                · have := hinv u hmem
                  omega
              · refine List.Pairwise.cons ?_ hpw
                intro b hb
                have := hinv b hb
                omega
    · rw [if_neg hidx] at h
      exact finishLex_positions src idx line col acc ts hinv hpw h

/-- The tokens of `"gem"`. -/
def c9Toks : List Token :=
  [⟨.Identifier, str "gem", 0, 3, 1, 1⟩, ⟨.EndOfFile, [], 3, 3, 1, 4⟩]

/-- C9: whenever `tokenize` succeeds, the returned tokens have
monotonically non-decreasing start offsets, and every token's start
offset is at most its end offset. -/
theorem c9_token_positions (src : Str) (ts : List Token)
    (h : tokenize src = .ok ts) :
    List.Pairwise (fun a b => a.start ≤ b.start) ts ∧
    ∀ t ∈ ts, t.start ≤ t.endPos := by
  unfold tokenize at h
  refine lexLoop_positions src (src.length * MAX_ITERATIONS) 0 1 1 [] ts
    ?_ List.Pairwise.nil h
  intro t ht
  cases ht

/-- Witness for C9 at a concrete input: tokenizing `"gem"` succeeds and
the two resulting tokens satisfy the position invariants. -/
theorem c9_token_positions_witness :
    tokenize (str "gem") = .ok c9Toks ∧
    (List.Pairwise (fun a b => a.start ≤ b.start) c9Toks ∧
      ∀ t ∈ c9Toks, t.start ≤ t.endPos) :=
  ⟨rfl, c9_token_positions (str "gem") c9Toks rfl⟩

/-! Claim C3: the input `"group :a do\n"` drives the source into the
`while (!this.match(TokenKind.End)) this.statement(...)` loop of the
`group` branch with the cursor stuck on `EndOfFile`: `match(End)` is
false at `EndOfFile`, and `statement` at `EndOfFile` falls through to
`skipLine`, which consumes nothing.  In the fuelled model every fuel
value is exhausted; in the source, which has no fuel, the loop runs
forever. -/

/-- The C3 input `group :a do` followed by a newline. -/
def c3Input : Str := str "group :a do" ++ [Char.ofNat 10]

/-- Its tokens. -/
def c3Toks : List Token :=
  [⟨.Identifier, str "group", 0, 5, 1, 1⟩,
   ⟨.Symbol, colonChar :: str "a", 6, 8, 1, 9⟩,
   ⟨.Do, str "do", 9, 11, 1, 10⟩,
   ⟨.NewLine, [Char.ofNat 10], 11, 12, 1, 12⟩,
   ⟨.EndOfFile, [], 12, 12, 2, 1⟩]

/-- On the C3 tokens, a top-level `statement` opens the `group` block and
runs `blockLoop` with the cursor on the `NewLine` token. -/
theorem c3_statement_head (n : Nat) :
    statement c3Toks (n + 2) [] [] ⟨0, 0, emptyOutput⟩ =
      match blockLoop c3Toks (n + 1) [str "a"] [] ⟨3, 1, emptyOutput⟩ with
      | .error e => .error e
      | .ok st => .ok { st with depth := st.depth - 1 } := rfl

/-- Inside the block, the statement at the `NewLine` token consumes it
and stops at `EndOfFile`. -/
theorem c3_stuck_entry (u : Nat) :
    statement c3Toks (u + 2) [str "a"] [] ⟨3, 1, emptyOutput⟩ =
      .ok ⟨4, 1, emptyOutput⟩ := rfl

/-- The degenerate step: at `EndOfFile` inside the block, `statement`
returns without consuming any token or touching the output. -/
theorem c3_statement_stall (m : Nat) :
    statement c3Toks (m + 2) [str "a"] [] ⟨4, 1, emptyOutput⟩ =
      .ok ⟨4, 1, emptyOutput⟩ := rfl

/-- One unfolding of `blockLoop` at the `NewLine` token (`match(End)` is
false there). -/
theorem c3_blockLoop_eq_nl (n : Nat) :
    blockLoop c3Toks (n + 1) [str "a"] [] ⟨3, 1, emptyOutput⟩ =
      match statement c3Toks n [str "a"] [] ⟨3, 1, emptyOutput⟩ with
      | .error e => .error e
      | .ok st => blockLoop c3Toks n [str "a"] [] st := rfl

/-- One unfolding of `blockLoop` at `EndOfFile` (`match(End)` is false
there too: the loop has no end-of-input check). -/
theorem c3_blockLoop_eq_eof (n : Nat) :
    blockLoop c3Toks (n + 1) [str "a"] [] ⟨4, 1, emptyOutput⟩ =
      match statement c3Toks n [str "a"] [] ⟨4, 1, emptyOutput⟩ with
      | .error e => .error e
      | .ok st => blockLoop c3Toks n [str "a"] [] st := rfl

/-- `blockLoop` stuck at `EndOfFile` exhausts every fuel value. -/
theorem c3_blockLoop_diverges (f : Nat) :
    blockLoop c3Toks f [str "a"] [] ⟨4, 1, emptyOutput⟩ =
      .error .outOfFuel := by
  induction f with
  | zero => rfl
  | succ n ih =>
    rcases n with _ | (_ | m)
    · rfl
    · rfl
    · rw [c3_blockLoop_eq_eof (m + 2), c3_statement_stall m]
      exact ih

/-- `blockLoop` entered at the `NewLine` token also exhausts every fuel
value: its first statement lands on `EndOfFile` and the loop stalls
there. -/
theorem c3_blockLoop_nl_diverges (f : Nat) :
    blockLoop c3Toks f [str "a"] [] ⟨3, 1, emptyOutput⟩ =
      .error .outOfFuel := by
  rcases f with _ | (_ | (_ | u))
  · rfl
  · rfl
  · rfl
  · rw [c3_blockLoop_eq_nl (u + 2), c3_stuck_entry u]
    exact c3_blockLoop_diverges (u + 2)

/-- C3: refuted — parsing does not terminate on every input.  Lexing
`"group :a do\n"` succeeds, but the parser run exhausts every fuel
value: the source's `while (!this.match(End))` loop of the `group`
branch never checks for `EndOfFile`, and `statement` at `EndOfFile`
consumes nothing, so the unfuelled original loops forever. -/
theorem c3_group_block_nonterminating :
    tokenize c3Input = .ok c3Toks ∧
    ∀ fuel, parseLoop c3Toks fuel ⟨0, 0, emptyOutput⟩ =
      .error .outOfFuel := by
  refine ⟨rfl, ?_⟩
  intro fuel
  rcases fuel with _ | (_ | (_ | m))
  · rfl
  · rfl
  · rfl
  · show (match statement c3Toks (m + 2) [] [] ⟨0, 0, emptyOutput⟩ with
      | .error e => (.error e : Except PErr PState)
      | .ok st => parseLoop c3Toks (m + 2) st) = .error .outOfFuel
    rw [c3_statement_head m, c3_blockLoop_nl_diverges (m + 1)]

/-! Claim C5: refuted as stated (`c5_empty_name_counterexample`: the
name of `gem ""` is empty), and repaired under a hypothesis on the token
stream: every token that could serve as a name literal normalizes to a
non-empty string. -/

/-- A token that yields a non-empty name when used as a name literal:
identifiers have non-empty text, string/symbol literals have non-empty
normalized text. -/
def nameLiteralOk (t : Token) : Prop :=
  (t.kind = .Identifier → t.text ≠ []) ∧
  ((t.kind = .String ∨ t.kind = .Symbol) → strip t.text ≠ [])

instance (t : Token) : Decidable (nameLiteralOk t) :=
  decidable_of_iff ((t.kind = .Identifier → t.text ≠ []) ∧
    ((t.kind = .String ∨ t.kind = .Symbol) → strip t.text ≠ [])) Iff.rfl

/-- Every declaration collected so far has a non-empty name. -/
def goodNames (o : ParseOutput) : Prop :=
  (∀ d ∈ o.runtime, d.name ≠ []) ∧ ∀ d ∈ o.development, d.name ≠ []

/-- A token read by `peekT` belongs to the token array. -/
theorem peekT_mem (toks : List Token) (c : Nat) (t : Token)
    (h : peekT toks c = .ok t) : t ∈ toks := by
  unfold peekT at h
  cases hget : toks.get? c with
  | none => rw [hget] at h; exact Except.noConfusion h
  | some u =>
    rw [hget] at h
    obtain rfl := Except.ok.inj h
    exact List.get?_mem hget

/-- `enter` touches only the depth. -/
theorem enter_out (toks : List Token) (st st' : PState)
    (h : enter toks st = .ok st') : st'.out = st.out := by
  unfold enter at h
  split at h
  · exact absurd h (throwErrAt_ne_ok _ _ _ _)
  · obtain rfl := Except.ok.inj h
    rfl

/-- The name of a successfully parsed declaration comes from the name
token: the raw text of an identifier, or the normalized text of a
string/symbol literal.  Under `nameLiteralOk` for all tokens it is
non-empty. -/
theorem parseDecl_name (toks : List Token) (fuel : Nat)
    (groups platforms : List Str) (c0 c : Nat) (decl : GemDeclaration)
    (hg : ∀ t ∈ toks, nameLiteralOk t)
    (h : parseDecl toks fuel groups platforms c0 = .ok (decl, c)) :
    decl.name ≠ [] := by
  simp only [parseDecl] at h
  cases hlp : matchK toks .LeftParen c0 with
  | error e => simp only [hlp] at h; exact Except.noConfusion h
  | ok pr =>
    obtain ⟨hasParens, c1⟩ := pr
    simp only [hlp] at h
    cases hpk : peekT toks c1 with
    | error e => simp only [hpk] at h; exact Except.noConfusion h
    | ok nameTok =>
      simp only [hpk] at h
      obtain ⟨h1, h2⟩ := hg nameTok (peekT_mem toks c1 nameTok hpk)
      by_cases hbad : nameTok.kind ≠ .String ∧ nameTok.kind ≠ .Symbol ∧
          nameTok.kind ≠ .Identifier
      · rw [if_pos hbad] at h
        exact absurd h (throwErrAt_ne_ok _ _ _ _)
      · rw [if_neg hbad] at h
        repeat' split at h
        all_goals first
          | exact Except.noConfusion h
          | (have hde : _ = decl := congrArg Prod.fst (Except.ok.inj h)
             rw [← hde]
             exact h1 (by assumption))
          | (have hde : _ = decl := congrArg Prod.fst (Except.ok.inj h)
             rw [← hde]
             refine h2 ?_
             by_cases hs : nameTok.kind = .String
             · exact Or.inl hs
             · refine Or.inr ?_
               by_contra hsym
               exact hbad ⟨hs, hsym, by assumption⟩)

/-- `pushDecl` preserves `goodNames` when the new declaration's name is
non-empty. -/
theorem pushDecl_goodNames (isDev : Bool) (d : GemDeclaration)
    (o : ParseOutput) (hd : d.name ≠ []) (ho : goodNames o) :
    goodNames (pushDecl isDev d o) := by
  obtain ⟨hr, hdv⟩ := ho
  unfold pushDecl
  split
  · refine ⟨hr, ?_⟩
    intro x hx
    rcases List.mem_append.mp hx with hx | hx
    · exact hdv x hx
    · obtain rfl := List.mem_singleton.mp hx
      exact hd
  · refine ⟨?_, hdv⟩
    intro x hx
    rcases List.mem_append.mp hx with hx | hx
    · exact hr x hx
    · obtain rfl := List.mem_singleton.mp hx
      exact hd

/-- The `gem`/`pod` branch preserves `goodNames`: the pushed declaration
carries the (non-empty) parsed name whatever the classification and
trailing-conditional handling do to its groups field. -/
theorem gemTail_goodNames (toks : List Token) (fuel : Nat)
    (groups platforms : List Str) (st st' : PState)
    (hg : ∀ t ∈ toks, nameLiteralOk t) (ho : goodNames st.out)
    (h : gemTail toks fuel groups platforms st = .ok st') :
    goodNames st'.out := by
  simp only [gemTail] at h
  cases hp : parseDecl toks fuel groups platforms st.cursor with
  | error e => simp only [hp] at h; exact Except.noConfusion h
  | ok dc =>
    obtain ⟨decl, c⟩ := dc
    simp only [hp] at h
    have hname := parseDecl_name toks fuel groups platforms st.cursor c
      decl hg hp
    cases hdev : hasDevGroups decl
    case false =>
      simp only [hdev, reduceIte] at h
      cases hpk : peekT toks c with
      | error e => simp only [hpk] at h; exact Except.noConfusion h
      | ok t =>
        simp only [hpk] at h
        by_cases hIf : t.kind = .If
        · simp only [hIf, reduceIte] at h
          cases hskip : skipToNl toks fuel (c + 1) with
          | error e => simp only [hskip] at h; exact Except.noConfusion h
          | ok c2 =>
            simp only [hskip] at h
            cases hline : skipLine toks fuel c2 with
            | error e => simp only [hline] at h; exact Except.noConfusion h
            | ok c4 =>
              simp only [hline] at h
              obtain rfl : _ = st' := Except.ok.inj h
              exact pushDecl_goodNames _ _ _ hname ho
        · simp only [hIf, reduceIte] at h
          cases hline : skipLine toks fuel c with
          | error e => simp only [hline] at h; exact Except.noConfusion h
          | ok c4 =>
            simp only [hline] at h
            obtain rfl : _ = st' := Except.ok.inj h
            exact pushDecl_goodNames _ _ _ hname ho
    case true =>
      simp only [hdev, reduceIte] at h
      cases hpk : peekT toks c with
      | error e => simp only [hpk] at h; exact Except.noConfusion h
      | ok t =>
        simp only [hpk] at h
        by_cases hIf : t.kind = .If
        · simp only [hIf, reduceIte] at h
          cases hskip : skipToNl toks fuel (c + 1) with
          | error e => simp only [hskip] at h; exact Except.noConfusion h
          | ok c2 =>
            simp only [hskip] at h
            cases hline : skipLine toks fuel c2 with
            | error e => simp only [hline] at h; exact Except.noConfusion h
            | ok c4 =>
              simp only [hline] at h
              obtain rfl : _ = st' := Except.ok.inj h
              exact pushDecl_goodNames _ _ _ hname ho
        · simp only [hIf, reduceIte] at h
          cases hline : skipLine toks fuel c with
          | error e => simp only [hline] at h; exact Except.noConfusion h
          | ok c4 =>
            simp only [hline] at h
            obtain rfl : _ = st' := Except.ok.inj h
            exact pushDecl_goodNames _ _ _ hname ho

/-- A spec-block statement preserves `goodNames`: it either only moves
the cursor, records `selfName`/`selfVersion`, or pushes a declaration
parsed by `parseDecl` (whose name is non-empty under `nameLiteralOk`). -/
theorem parseSpecStatement_goodNames (toks : List Token) (fuel : Nat)
    (blockVar : Option Str) (st st' : PState)
    (hg : ∀ t ∈ toks, nameLiteralOk t) (ho : goodNames st.out)
    (h : parseSpecStatement toks fuel blockVar st = .ok st') :
    goodNames st'.out := by
  simp only [parseSpecStatement] at h
  cases hpk : peekT toks st.cursor with
  | error e => simp only [hpk] at h; exact Except.noConfusion h
  | ok t =>
    simp only [hpk] at h
    by_cases hc1 : t.kind = .Identifier ∧
        (blockVar = none ∨ blockVar = some t.text)
    case neg =>
      rw [if_neg hc1] at h
      cases hsl : skipLine toks fuel st.cursor with
      | error e => simp only [hsl] at h; exact Except.noConfusion h
      | ok cz =>
        simp only [hsl] at h
        obtain rfl : _ = st' := Except.ok.inj h
        exact ho
    case pos =>
      rw [if_pos hc1] at h
      cases hdot : matchK toks .Dot (st.cursor + 1) with
      | error e => simp only [hdot] at h; exact Except.noConfusion h
      | ok pr =>
        obtain ⟨isDot, c⟩ := pr
        simp only [hdot] at h
        cases isDot
        case false =>
          rw [if_pos (by decide)] at h
          cases hsl : skipLine toks fuel c with
          | error e => simp only [hsl] at h; exact Except.noConfusion h
          | ok cz =>
            simp only [hsl] at h
            obtain rfl : _ = st' := Except.ok.inj h
            exact ho
        case true =>
          rw [if_neg (by decide)] at h
          cases hm : peekT toks c with
          | error e => simp only [hm] at h; exact Except.noConfusion h
          | ok method =>
            simp only [hm] at h
            by_cases hmid : method.kind ≠ .Identifier
            · rw [if_pos hmid] at h
              cases hsl : skipLine toks fuel (c + 1) with
              | error e => simp only [hsl] at h; exact Except.noConfusion h
              | ok cz =>
                simp only [hsl] at h
                obtain rfl : _ = st' := Except.ok.inj h
                exact ho
            · rw [if_neg hmid] at h
              cases heqk : matchK toks .Equals (c + 1) with
              | error e => simp only [heqk] at h; exact Except.noConfusion h
              | ok pr2 =>
                obtain ⟨isEq, c2⟩ := pr2
                simp only [heqk] at h
                cases hp2 : peekT toks c2 with
                | error e => simp only [hp2] at h; exact Except.noConfusion h
                | ok t2 =>
                  simp only [hp2] at h
                  by_cases hstr : isEq = true ∧ t2.kind = .String
                  · rw [if_pos hstr] at h
                    by_cases hnm : method.text = str "name"
                    · rw [if_pos hnm] at h
                      cases hsl : skipLine toks fuel (c2 + 1) with
                      | error e => simp only [hsl] at h; exact Except.noConfusion h
                      | ok cz =>
                        simp only [hsl] at h
                        obtain rfl : _ = st' := Except.ok.inj h
                        exact ho
                    · rw [if_neg hnm] at h
                      by_cases hvr : method.text = str "version"
                      · rw [if_pos hvr] at h
                        cases hsl : skipLine toks fuel (c2 + 1) with
                        | error e => simp only [hsl] at h; exact Except.noConfusion h
                        | ok cz =>
                          simp only [hsl] at h
                          obtain rfl : _ = st' := Except.ok.inj h
                          exact ho
                      · rw [if_neg hvr] at h
                        cases hsl : skipLine toks fuel (c2 + 1) with
                        | error e => simp only [hsl] at h; exact Except.noConfusion h
                        | ok cz =>
                          simp only [hsl] at h
                          obtain rfl : _ = st' := Except.ok.inj h
                          exact ho
                  · rw [if_neg hstr] at h
                    by_cases hsend : method.text = str "send"
                    · rw [if_pos hsend] at h
                      cases hlp2 : matchK toks .LeftParen c2 with
                      | error e =>
                        simp only [hlp2] at h
                        exact Except.noConfusion h
                      | ok pr3 =>
                        obtain ⟨b0, c3⟩ := pr3
                        simp only [hlp2] at h
                        cases hp3 : peekT toks c3 with
                        | error e =>
                          simp only [hp3] at h
                          exact Except.noConfusion h
                        | ok t3 =>
                          simp only [hp3] at h
                          by_cases hsym : t3.kind = .Symbol
                          · rw [if_pos hsym] at h
                            by_cases hdep :
                                includesStr (dropLeadingColon (strip t3.text))
                                  (str "dependency") = true
                            · rw [if_pos hdep] at h
                              cases hcm : matchK toks .Comma (c3 + 1) with
                              | error e =>
                                simp only [hcm] at h
                                exact Except.noConfusion h
                              | ok pr4 =>
                                obtain ⟨b1, c4⟩ := pr4
                                simp only [hcm] at h
                                cases hpd : parseDecl toks fuel [] [] c4 with
                                | error e =>
                                  simp only [hpd] at h
                                  exact Except.noConfusion h
                                | ok dc =>
                                  obtain ⟨decl, c5⟩ := dc
                                  simp only [hpd] at h
                                  cases hsl : skipLine toks fuel c5 with
                                  | error e =>
                                    simp only [hsl] at h
                                    exact Except.noConfusion h
                                  | ok c6 =>
                                    simp only [hsl] at h
                                    obtain rfl : _ = st' := Except.ok.inj h
                                    exact pushDecl_goodNames _ _ _
                                      (parseDecl_name toks fuel [] [] c4 c5
                                        decl hg hpd) ho
                            · rw [if_neg hdep] at h
                              cases hsl : skipLine toks fuel (c3 + 1) with
                              | error e => simp only [hsl] at h; exact Except.noConfusion h
                              | ok cz =>
                                simp only [hsl] at h
                                obtain rfl : _ = st' := Except.ok.inj h
                                exact ho
                          · rw [if_neg hsym] at h
                            cases hsl : skipLine toks fuel c3 with
                            | error e => simp only [hsl] at h; exact Except.noConfusion h
                            | ok cz =>
                              simp only [hsl] at h
                              obtain rfl : _ = st' := Except.ok.inj h
                              exact ho
                    · rw [if_neg hsend] at h
                      by_cases hadd : method.text = str "add_dependency" ∨
                          method.text = str "add_runtime_dependency" ∨
                          method.text = str "add_development_dependency" ∨
                          method.text = str "dependency"
                      · rw [if_pos hadd] at h
                        cases hpd : parseDecl toks fuel [] [] c2 with
                        | error e =>
                          simp only [hpd] at h
                          exact Except.noConfusion h
                        | ok dc =>
                          obtain ⟨decl, c5⟩ := dc
                          simp only [hpd] at h
                          cases hsl : skipLine toks fuel c5 with
                          | error e =>
                            simp only [hsl] at h
                            exact Except.noConfusion h
                          | ok c6 =>
                            simp only [hsl] at h
                            obtain rfl : _ = st' := Except.ok.inj h
                            refine pushDecl_goodNames _ _ _ ?_ ho
                            have hname := parseDecl_name toks fuel [] [] c2 c5
                              decl hg hpd
                            split
                            · exact hname
                            · exact hname
                      · rw [if_neg hadd] at h
                        cases hsl : skipLine toks fuel c2 with
                        | error e => simp only [hsl] at h; exact Except.noConfusion h
                        | ok cz =>
                          simp only [hsl] at h
                          obtain rfl : _ = st' := Except.ok.inj h
                          exact ho

/-- The `if`-branch statement loop of a spec block preserves
`goodNames`. -/
theorem specIfBody_goodNames (toks : List Token)
    (hg : ∀ t ∈ toks, nameLiteralOk t) : ∀ fuel blockVar st st',
    goodNames st.out → specIfBody toks fuel blockVar st = .ok st' →
    goodNames st'.out := by
  intro fuel
  induction fuel with
  | zero => intro blockVar st st' ho h; exact Except.noConfusion h
  | succ n ih =>
    intro blockVar st st' ho h
    rw [specIfBody] at h
    cases hpk : peekT toks st.cursor with
    | error e => simp only [hpk] at h; exact Except.noConfusion h
    | ok t =>
      simp only [hpk] at h
      split at h
      · obtain rfl : st = st' := Except.ok.inj h
        exact ho
      · cases hps : parseSpecStatement toks n blockVar st with
        | error e => simp only [hps] at h; exact Except.noConfusion h
        | ok st2 =>
          simp only [hps] at h
          exact ih blockVar st2 st'
            (parseSpecStatement_goodNames toks n blockVar st st2 hg ho hps) h

/-- The main statement loop of `parseSpec` preserves `goodNames`. -/
theorem specLoop_goodNames (toks : List Token)
    (hg : ∀ t ∈ toks, nameLiteralOk t) : ∀ fuel blockVar st st',
    goodNames st.out → specLoop toks fuel blockVar st = .ok st' →
    goodNames st'.out := by
  intro fuel
  induction fuel with
  | zero => intro blockVar st st' ho h; exact Except.noConfusion h
  | succ n ih =>
    intro blockVar st st' ho h
    rw [specLoop] at h
    cases hpk : peekT toks st.cursor with
    | error e => simp only [hpk] at h; exact Except.noConfusion h
    | ok t =>
      simp only [hpk] at h
      split at h
      · obtain rfl : st = st' := Except.ok.inj h
        exact ho
      · cases hend : matchK toks .End st.cursor with
        | error e => simp only [hend] at h; exact Except.noConfusion h
        | ok pr =>
          obtain ⟨isEnd, c⟩ := pr
          simp only [hend] at h
          cases isEnd
          case true =>
            rw [if_pos rfl] at h
            obtain rfl : _ = st' := Except.ok.inj h
            exact ho
          case false =>
            rw [if_neg (by decide)] at h
            cases hif : matchK toks .If c with
            | error e => simp only [hif] at h; exact Except.noConfusion h
            | ok pr2 =>
              obtain ⟨isIf, c1⟩ := pr2
              simp only [hif] at h
              cases isIf
              case false =>
                rw [if_neg (by decide)] at h
                cases hps : parseSpecStatement toks n blockVar
                    { st with cursor := c1 } with
                | error e => simp only [hps] at h; exact Except.noConfusion h
                | ok st2 =>
                  simp only [hps] at h
                  exact ih blockVar st2 st'
                    (parseSpecStatement_goodNames toks n blockVar
                      { st with cursor := c1 } st2 hg ho hps) h
              case true =>
                rw [if_pos rfl] at h
                cases hsn : skipToNl toks n c1 with
                | error e => simp only [hsn] at h; exact Except.noConfusion h
                | ok c2 =>
                  simp only [hsn] at h
                  cases hnl : matchK toks .NewLine c2 with
                  | error e => simp only [hnl] at h; exact Except.noConfusion h
                  | ok pr3 =>
                    obtain ⟨b2, c3⟩ := pr3
                    simp only [hnl] at h
                    cases hib : specIfBody toks n blockVar
                        { st with cursor := c3 } with
                    | error e =>
                      simp only [hib] at h
                      exact Except.noConfusion h
                    | ok st2 =>
                      simp only [hib] at h
                      have ho2 := specIfBody_goodNames toks hg n blockVar
                        { st with cursor := c3 } st2 ho hib
                      cases hel : matchK toks .Else st2.cursor with
                      | error e =>
                        simp only [hel] at h
                        exact Except.noConfusion h
                      | ok pr4 =>
                        obtain ⟨isElse, c4⟩ := pr4
                        simp only [hel] at h
                        cases isElse
                        case true =>
                          rw [if_pos rfl] at h
                          cases hse : skipToEndTok toks n c4 with
                          | error e =>
                            simp only [hse] at h
                            exact Except.noConfusion h
                          | ok c5 =>
                            simp only [hse] at h
                            cases hen2 : matchK toks .End c5 with
                            | error e =>
                              simp only [hen2] at h
                              exact Except.noConfusion h
                            | ok pr5 =>
                              obtain ⟨b3, c6⟩ := pr5
                              simp only [hen2] at h
                              exact ih blockVar { st2 with cursor := c6 }
                                st' ho2 h
                        case false =>
                          rw [if_neg (by decide)] at h
                          cases hen2 : matchK toks .End c4 with
                          | error e =>
                            simp only [hen2] at h
                            exact Except.noConfusion h
                          | ok pr5 =>
                            obtain ⟨b3, c6⟩ := pr5
                            simp only [hen2] at h
                            exact ih blockVar { st2 with cursor := c6 }
                              st' ho2 h

/-- `parseSpec` preserves `goodNames`: the optional receiver-name string
only sets `selfName`, and the statements run through `specLoop`. -/
theorem parseSpec_goodNames (toks : List Token) (fuel : Nat)
    (st st' : PState) (hg : ∀ t ∈ toks, nameLiteralOk t)
    (ho : goodNames st.out) (h : parseSpec toks fuel st = .ok st') :
    goodNames st'.out := by
  simp only [parseSpec] at h
  cases hpk : peekT toks st.cursor with
  | error e => simp only [hpk] at h; exact Except.noConfusion h
  | ok t =>
    simp only [hpk] at h
    generalize hst1 : (if t.kind = .String then { st with cursor := st.cursor + 1, out := { st.out with selfName := some (strip t.text) } } else st) = st1 at h
    have ho1 : goodNames st1.out := by
      rw [← hst1]
      by_cases hks : t.kind = .String
      · rw [if_pos hks]
        exact ho
      · rw [if_neg hks]
        exact ho
    cases hdo : matchK toks .Do st1.cursor with
    | error e => simp only [hdo] at h; exact Except.noConfusion h
    | ok pr =>
      obtain ⟨isDo, c⟩ := pr
      simp only [hdo] at h
      cases isDo
      case false =>
        rw [if_neg (by decide)] at h
        simp only [] at h
        cases hsl2 : specLoop toks fuel none { st1 with cursor := c } with
        | error e => simp only [hsl2] at h; exact Except.noConfusion h
        | ok st2 =>
          simp only [hsl2] at h
          have ho2 := specLoop_goodNames toks hg fuel none
            { st1 with cursor := c } st2 ho1 hsl2
          split at h <;> (obtain rfl : _ = st' := Except.ok.inj h; exact ho2)
      case true =>
        rw [if_pos rfl] at h
        cases hps : matchSymbol toks [Char.ofNat 124] c with
        | error e => simp only [hps] at h; exact Except.noConfusion h
        | ok pr2 =>
          obtain ⟨isPipe, c2⟩ := pr2
          simp only [hps] at h
          cases isPipe
          case false =>
            rw [if_neg (by decide)] at h
            cases hen : enter toks { st1 with cursor := c2 } with
            | error e => simp only [hen] at h; exact Except.noConfusion h
            | ok stE =>
              simp only [hen] at h
              have hoE : goodNames stE.out := by
                rw [enter_out toks _ stE hen]
                exact ho1
              cases hsl2 : specLoop toks fuel none stE with
              | error e => simp only [hsl2] at h; exact Except.noConfusion h
              | ok st2 =>
                simp only [hsl2] at h
                have ho2 := specLoop_goodNames toks hg fuel none stE st2
                  hoE hsl2
                split at h <;>
                  (obtain rfl : _ = st' := Except.ok.inj h; exact ho2)
          case true =>
            rw [if_pos rfl] at h
            cases hp2 : peekT toks c2 with
            | error e => simp only [hp2] at h; exact Except.noConfusion h
            | ok t2 =>
              simp only [hp2] at h
              by_cases hti : t2.kind = .Identifier
              case pos =>
                rw [if_pos hti] at h
                simp only [] at h
                cases hps2 : matchSymbol toks [Char.ofNat 124] (c2 + 1) with
                | error e => simp only [hps2] at h; exact Except.noConfusion h
                | ok pr3 =>
                  obtain ⟨b4, c3⟩ := pr3
                  simp only [hps2] at h
                  cases hen : enter toks { st1 with cursor := c3 } with
                  | error e => simp only [hen] at h; exact Except.noConfusion h
                  | ok stE =>
                    simp only [hen] at h
                    have hoE : goodNames stE.out := by
                      rw [enter_out toks _ stE hen]
                      exact ho1
                    cases hsl2 : specLoop toks fuel (some t2.text) stE with
                    | error e =>
                      simp only [hsl2] at h
                      exact Except.noConfusion h
                    | ok st2 =>
                      simp only [hsl2] at h
                      have ho2 := specLoop_goodNames toks hg fuel
                        (some t2.text) stE st2 hoE hsl2
                      split at h <;>
                        (obtain rfl : _ = st' := Except.ok.inj h; exact ho2)
              case neg =>
                rw [if_neg hti] at h
                simp only [] at h
                cases hps2 : matchSymbol toks [Char.ofNat 124] c2 with
                | error e => simp only [hps2] at h; exact Except.noConfusion h
                | ok pr3 =>
                  obtain ⟨b4, c3⟩ := pr3
                  simp only [hps2] at h
                  cases hen : enter toks { st1 with cursor := c3 } with
                  | error e => simp only [hen] at h; exact Except.noConfusion h
                  | ok stE =>
                    simp only [hen] at h
                    have hoE : goodNames stE.out := by
                      rw [enter_out toks _ stE hen]
                      exact ho1
                    cases hsl2 : specLoop toks fuel none stE with
                    | error e =>
                      simp only [hsl2] at h
                      exact Except.noConfusion h
                    | ok st2 =>
                      simp only [hsl2] at h
                      have ho2 := specLoop_goodNames toks hg fuel none stE
                        st2 hoE hsl2
                      split at h <;>
                        (obtain rfl : _ = st' := Except.ok.inj h; exact ho2)

/-- `statement` and `blockLoop` preserve `goodNames` (simultaneous
induction on the fuel). -/
theorem statement_goodNames_all (toks : List Token)
    (hg : ∀ t ∈ toks, nameLiteralOk t) : ∀ fuel,
    (∀ groups platforms st st', goodNames st.out →
      statement toks fuel groups platforms st = .ok st' →
      goodNames st'.out) ∧
    (∀ groups platforms st st', goodNames st.out →
      blockLoop toks fuel groups platforms st = .ok st' →
      goodNames st'.out) := by
  intro fuel
  induction fuel with
  | zero =>
    exact ⟨fun _ _ _ _ _ h => Except.noConfusion h,
           fun _ _ _ _ _ h => Except.noConfusion h⟩
  | succ n ih =>
    obtain ⟨ihS, ihB⟩ := ih
    refine ⟨?_, ?_⟩
    · intro groups platforms st st' ho h
      rw [statement] at h
      cases hw1 : matchWord toks (str "gem") st.cursor with
      | error e => simp only [hw1] at h; exact Except.noConfusion h
      | ok pr1 =>
        obtain ⟨g, c1⟩ := pr1
        simp only [hw1] at h
        cases g
        case true =>
          rw [if_pos rfl] at h
          simp only [] at h
          rw [if_pos trivial] at h
          exact gemTail_goodNames toks n groups platforms _ st' hg (by exact ho) h
        case false =>
          rw [if_neg (by decide)] at h
          cases hw2 : matchWord toks (str "pod") c1 with
          | error e => simp only [hw2] at h; exact Except.noConfusion h
          | ok pr2 =>
            obtain ⟨isGP, c2⟩ := pr2
            simp only [hw2] at h
            cases isGP
            case true =>
              rw [if_pos rfl] at h
              exact gemTail_goodNames toks n groups platforms _ st' hg (by exact ho) h
            case false =>
              rw [if_neg (by decide)] at h
              cases hw3 : matchWord toks (str "group") c2 with
              | error e => simp only [hw3] at h; exact Except.noConfusion h
              | ok pr3 =>
                obtain ⟨gr, c3⟩ := pr3
                simp only [hw3] at h
                cases gr
                case true =>
                  rw [if_pos rfl] at h
                  simp only [] at h
                  rw [if_pos trivial] at h
                  cases hlab : labels toks n c3 with
                  | error e => simp only [hlab] at h; exact Except.noConfusion h
                  | ok prL =>
                    obtain ⟨newGs, c5⟩ := prL
                    simp only [hlab] at h
                    cases hdo : matchK toks .Do c5 with
                    | error e => simp only [hdo] at h; exact Except.noConfusion h
                    | ok prD =>
                      obtain ⟨isDo, c6⟩ := prD
                      simp only [hdo] at h
                      cases isDo
                      case true =>
                        rw [if_pos rfl] at h
                        cases hen : enter toks { st with cursor := c6 } with
                        | error e => simp only [hen] at h; exact Except.noConfusion h
                        | ok stE =>
                          simp only [hen] at h
                          have hoE : goodNames stE.out := by
                            rw [enter_out toks _ stE hen]
                            exact ho
                          cases hbl : blockLoop toks n newGs platforms stE with
                          | error e => simp only [hbl] at h; exact Except.noConfusion h
                          | ok st3 =>
                            simp only [hbl] at h
                            obtain rfl : _ = st' := Except.ok.inj h
                            exact ihB newGs platforms stE st3 hoE hbl
                      case false =>
                        rw [if_neg (by decide)] at h
                        obtain rfl : _ = st' := Except.ok.inj h
                        exact ho
                case false =>
                  rw [if_neg (by decide)] at h
                  cases hw4 : matchWord toks (str "target") c3 with
                  | error e => simp only [hw4] at h; exact Except.noConfusion h
                  | ok pr4 =>
                    obtain ⟨isGT, c4⟩ := pr4
                    simp only [hw4] at h
                    cases isGT
                    case true =>
                      rw [if_pos rfl] at h
                      cases hlab : labels toks n c4 with
                      | error e => simp only [hlab] at h; exact Except.noConfusion h
                      | ok prL =>
                        obtain ⟨newGs, c5⟩ := prL
                        simp only [hlab] at h
                        cases hdo : matchK toks .Do c5 with
                        | error e => simp only [hdo] at h; exact Except.noConfusion h
                        | ok prD =>
                          obtain ⟨isDo, c6⟩ := prD
                          simp only [hdo] at h
                          cases isDo
                          case true =>
                            rw [if_pos rfl] at h
                            cases hen : enter toks { st with cursor := c6 } with
                            | error e => simp only [hen] at h; exact Except.noConfusion h
                            | ok stE =>
                              simp only [hen] at h
                              have hoE : goodNames stE.out := by
                                rw [enter_out toks _ stE hen]
                                exact ho
                              cases hbl : blockLoop toks n newGs platforms stE with
                              | error e => simp only [hbl] at h; exact Except.noConfusion h
                              | ok st3 =>
                                simp only [hbl] at h
                                obtain rfl : _ = st' := Except.ok.inj h
                                exact ihB newGs platforms stE st3 hoE hbl
                          case false =>
                            rw [if_neg (by decide)] at h
                            obtain rfl : _ = st' := Except.ok.inj h
                            exact ho
                    case false =>
                      rw [if_neg (by decide)] at h
                      cases hw5 : matchWord toks (str "platforms") c4 with
                      | error e =>
                        simp only [hw5] at h
                        exact Except.noConfusion h
                      | ok pr5 =>
                        obtain ⟨isPl, cP⟩ := pr5
                        simp only [hw5] at h
                        cases isPl
                        case true =>
                          rw [if_pos rfl] at h
                          cases hlab : labels toks n cP with
                          | error e => simp only [hlab] at h; exact Except.noConfusion h
                          | ok prL =>
                            obtain ⟨newGs, c5⟩ := prL
                            simp only [hlab] at h
                            cases hdo : matchK toks .Do c5 with
                            | error e => simp only [hdo] at h; exact Except.noConfusion h
                            | ok prD =>
                              obtain ⟨isDo, c6⟩ := prD
                              simp only [hdo] at h
                              cases isDo
                              case true =>
                                rw [if_pos rfl] at h
                                cases hen : enter toks { st with cursor := c6 } with
                                | error e => simp only [hen] at h; exact Except.noConfusion h
                                | ok stE =>
                                  simp only [hen] at h
                                  have hoE : goodNames stE.out := by
                                    rw [enter_out toks _ stE hen]
                                    exact ho
                                  cases hbl : blockLoop toks n groups newGs stE with
                                  | error e => simp only [hbl] at h; exact Except.noConfusion h
                                  | ok st3 =>
                                    simp only [hbl] at h
                                    obtain rfl : _ = st' := Except.ok.inj h
                                    exact ihB groups newGs stE st3 hoE hbl
                              case false =>
                                rw [if_neg (by decide)] at h
                                obtain rfl : _ = st' := Except.ok.inj h
                                exact ho
                        case false =>
                          rw [if_neg (by decide)] at h
                          cases hw6 : matchWord toks (str "source") cP with
                          | error e =>
                            simp only [hw6] at h
                            exact Except.noConfusion h
                          | ok pr6 =>
                            obtain ⟨isSrc, cS⟩ := pr6
                            simp only [hw6] at h
                            cases isSrc
                            case true =>
                              rw [if_pos rfl] at h
                              cases hz1 : skipLine toks n cS with
                              | error e => simp only [hz1] at h; exact Except.noConfusion h
                              | ok cz1 =>
                                simp only [hz1] at h
                                obtain rfl : _ = st' := Except.ok.inj h
                                exact ho
                            case false =>
                              rw [if_neg (by decide)] at h
                              cases hlsn : looksSpecNew toks cS with
                              | error e =>
                                simp only [hlsn] at h
                                exact Except.noConfusion h
                              | ok pr7 =>
                                obtain ⟨isSpec, cN⟩ := pr7
                                simp only [hlsn] at h
                                cases isSpec
                                case true =>
                                  rw [if_pos rfl] at h
                                  exact parseSpec_goodNames toks n _ st'
                                    hg (by exact ho) h
                                case false =>
                                  rw [if_neg (by decide)] at h
                                  cases hdo2 : matchK toks .Do cN with
                                  | error e =>
                                    simp only [hdo2] at h
                                    exact Except.noConfusion h
                                  | ok pr8 =>
                                    obtain ⟨isDo2, cA⟩ := pr8
                                    simp only [hdo2] at h
                                    cases isDo2
                                    case true =>
                                      rw [if_pos rfl] at h
                                      simp only [] at h
                                      rw [if_pos trivial] at h
                                      cases hz2 : skipBlock toks n 1 cA with
                                      | error e => simp only [hz2] at h; exact Except.noConfusion h
                                      | ok cz2 =>
                                        simp only [hz2] at h
                                        obtain rfl : _ = st' := Except.ok.inj h
                                        exact ho
                                    case false =>
                                      rw [if_neg (by decide)] at h
                                      cases hlp3 : matchK toks .LeftParen
                                          cA with
                                      | error e =>
                                        simp only [hlp3] at h
                                        exact Except.noConfusion h
                                      | ok pr9 =>
                                        obtain ⟨isLp, cB⟩ := pr9
                                        simp only [hlp3] at h
                                        cases isLp
                                        case true =>
                                          rw [if_pos rfl] at h
                                          cases hz3 : skipBlock toks n 1 cB with
                                          | error e => simp only [hz3] at h; exact Except.noConfusion h
                                          | ok cz3 =>
                                            simp only [hz3] at h
                                            obtain rfl : _ = st' := Except.ok.inj h
                                            exact ho
                                        case false =>
                                          rw [if_neg (by decide)] at h
                                          cases hz4 : skipLine toks n st.cursor with
                                          | error e => simp only [hz4] at h; exact Except.noConfusion h
                                          | ok cz4 =>
                                            simp only [hz4] at h
                                            obtain rfl : _ = st' := Except.ok.inj h
                                            exact ho
    · intro groups platforms st st' ho h
      rw [blockLoop] at h
      cases hend : matchK toks .End st.cursor with
      | error e => simp only [hend] at h; exact Except.noConfusion h
      | ok prE =>
        obtain ⟨isEnd, c⟩ := prE
        simp only [hend] at h
        cases isEnd
        case true =>
          rw [if_pos rfl] at h
          obtain rfl : _ = st' := Except.ok.inj h
          exact ho
        case false =>
          rw [if_neg (by decide)] at h
          cases hs1 : statement toks n groups platforms st with
          | error e => simp only [hs1] at h; exact Except.noConfusion h
          | ok st2 =>
            simp only [hs1] at h
            exact ihB groups platforms st2 st'
              (ihS groups platforms st st2 ho hs1) h

/-- The top-level parse loop preserves `goodNames`. -/
theorem parseLoop_goodNames (toks : List Token)
    (hg : ∀ t ∈ toks, nameLiteralOk t) : ∀ fuel st st',
    goodNames st.out → parseLoop toks fuel st = .ok st' →
    goodNames st'.out := by
  intro fuel
  induction fuel with
  | zero => intro st st' ho h; exact Except.noConfusion h
  | succ n ih =>
    intro st st' ho h
    rw [parseLoop] at h
    cases hpk : peekT toks st.cursor with
    | error e => simp only [hpk] at h; exact Except.noConfusion h
    | ok t =>
      simp only [hpk] at h
      split at h
      · obtain rfl : st = st' := Except.ok.inj h
        exact ho
      · cases hs1 : statement toks n [] [] st with
        | error e => simp only [hs1] at h; exact Except.noConfusion h
        | ok st2 =>
          simp only [hs1] at h
          exact ih st2 st'
            ((statement_goodNames_all toks hg n).1 [] [] st st2 ho hs1) h

/-- C5 (amended): whenever every token of the stream is an acceptable
name literal (identifiers non-empty, string/symbol literals non-empty
after normalization), a successful parse yields only declarations with
non-empty names, in both the runtime and the development lists.  The
unconditional claim is refuted by `c5_empty_name_counterexample`
(`gem ""` emits a declaration whose name is the empty string). -/
theorem c5_nonempty_names (toks : List Token) (out : ParseOutput)
    (hg : ∀ t ∈ toks, nameLiteralOk t)
    (h : Parser.parse toks = .ok out) :
    (∀ d ∈ out.runtime, d.name ≠ []) ∧
      ∀ d ∈ out.development, d.name ≠ [] := by
  unfold Parser.parse at h
  cases hpl : parseLoop toks (parseFuel toks) ⟨0, 0, emptyOutput⟩ with
  | error e => rw [hpl] at h; exact Except.noConfusion h
  | ok st =>
    rw [hpl] at h
    have hout : st.out = out := Except.ok.inj h
    rw [← hout]
    refine parseLoop_goodNames toks hg (parseFuel toks) ⟨0, 0, emptyOutput⟩
      st ?_ hpl
    constructor <;> intro d hd <;> exact absurd hd (List.not_mem_nil d)

/-- Tokens of `gem "rails"` for the C5 witness. -/
def c5Toks : List Token :=
  [⟨.Identifier, str "gem", 0, 3, 1, 1⟩,
   ⟨.String, str "\"rails\"", 4, 11, 1, 11⟩,
   ⟨.NewLine, [Char.ofNat 10], 11, 12, 1, 12⟩,
   ⟨.EndOfFile, [], 12, 12, 2, 1⟩]

/-- Its parse result. -/
def c5Out : ParseOutput :=
  ⟨none, none, [⟨str "rails", [], none, none, none, some [], []⟩], []⟩

/-- Witness for C5 at the concrete `gem "rails"` token stream: every
token is an acceptable name literal, the parse succeeds, and both output
lists contain only non-empty names. -/
theorem c5_nonempty_names_witness :
    (∀ t ∈ c5Toks, nameLiteralOk t) ∧
    Parser.parse c5Toks = .ok c5Out ∧
    ((∀ d ∈ c5Out.runtime, d.name ≠ []) ∧
      ∀ d ∈ c5Out.development, d.name ≠ []) :=
  ⟨by decide, rfl, c5_nonempty_names c5Toks c5Out (by decide) rfl⟩

end RubyDsl
